import Mathlib

/-!
# Verification of the `tsipaddr` address library

Shallow embedding of `src/address.ts` (classes `Address`, `Address4`,
`Address6`) together with the byte-array primitives the library imports
from its `arrays` module (absent from the sources; those primitives are
modelled from the design spec, sections 4.1 and 4.2).

Strings are modelled as `List Char`; the single `AddressValueError`
error kind (and the `RangeError` that JavaScript's `Array(n)` raises on
a negative length) are modelled through `Except ConstructError`.
-/

namespace TsIpAddr

/-- The two error kinds a constructor can raise: the library's own
`AddressValueError`, and JavaScript's built-in `RangeError` raised by
`Array(n)` when `n` is negative. -/
inductive ConstructError
  | addressValueError
  | rangeError
deriving DecidableEq

/-- `IPV4_BYTES` from the `constants` module: an IPv4 address has 4 octets. -/
def IPV4_BYTES : Nat := 4

/-- `IPV6_BYTES` from the `constants` module: an IPv6 address has 16 octets. -/
def IPV6_BYTES : Nat := 16

/-- `IPV6_SEGMENT_LENGTH` from the `constants` module: a colon-separated
group has at most 4 hex digits. -/
def IPV6_SEGMENT_LENGTH : Nat := 4

/-- The decimal digit characters (`DECIMAL_DIGITS`). -/
def DECIMAL_DIGITS : List Char := "0123456789".toList

/-- The hexadecimal digit characters, both cases (spec 4.2: hexadecimal is
case-insensitive). -/
def HEX_DIGITS : List Char := "0123456789abcdefABCDEF".toList

/-- Modelled from the spec (4.2, `isValidByte`, the `arrays` module being
absent from the sources): true iff `0 ≤ n ≤ 255`.  Bytes are modelled as
`Nat`, so only the upper bound remains. -/
def isValidByte (n : Nat) : Bool := n ≤ 255

/-- Modelled from the spec (4.2, `isValidByteArray`): every element is a
valid byte. -/
def isValidByteArray (ns : List Nat) : Bool := ns.all isValidByte

/-- Modelled from the spec (4.2, `isDecimalString`): nonempty and every
character a decimal digit. -/
def isDecimalString (s : List Char) : Bool :=
  !s.isEmpty && s.all (fun c => c ∈ DECIMAL_DIGITS)

/-- Modelled from the spec (4.2, `isHexadecimalString`): nonempty and every
character a hexadecimal digit (case-insensitive). -/
def isHexadecimalString (s : List Char) : Bool :=
  !s.isEmpty && s.all (fun c => c ∈ HEX_DIGITS)

/-- JavaScript's `String.prototype.split` with a one-character separator:
`"".split(c) = [""]`, separators at the ends produce empty parts. -/
def splitOnChar (sep : Char) : List Char → List (List Char)
  | [] => [[]]
  | c :: cs =>
    if c = sep then [] :: splitOnChar sep cs
    else
      match splitOnChar sep cs with
      | [] => [[c]]
      | p :: ps => (c :: p) :: ps

/-- Value of a decimal digit character (how `parseInt(s, 10)` consumes one
digit; only applied to characters of `DECIMAL_DIGITS`). -/
def digitVal (c : Char) : Nat := c.toNat - 48

/-- `parseInt(s, 10)` on an all-decimal-digit string. -/
def parseDec (s : List Char) : Nat :=
  s.foldl (fun acc c => acc * 10 + digitVal c) 0

/-- Value of a hexadecimal digit character (how `parseInt(s, 16)` consumes
one digit; only applied to characters of `HEX_DIGITS`). -/
def hexVal (c : Char) : Nat :=
  if c.toNat ≤ 57 then c.toNat - 48
  else if c.toNat ≤ 70 then c.toNat - 55
  else c.toNat - 87

/-- `parseInt(s, 16)` on an all-hex-digit string. -/
def parseHex (s : List Char) : Nat :=
  s.foldl (fun acc c => acc * 16 + hexVal c) 0

/-- One octet of the `Address4` string constructor (`address.ts`
lines 190–203): the part must be a decimal string whose value is a valid
byte; any failure is an `AddressValueError`. -/
def parseOctet4 (octet : List Char) : Except ConstructError Nat :=
  if ¬ isDecimalString octet then .error .addressValueError
  else
    let numberOctet := parseDec octet
    if ¬ isValidByte numberOctet then .error .addressValueError
    else .ok numberOctet

/-- Left-to-right effectful map over `Except`, as the `map` callback with
`throw` behaves in the source. -/
def mapMExcept (f : α → Except ConstructError β) : List α → Except ConstructError (List β)
  | [] => .ok []
  | x :: xs =>
    match f x with
    | .error e => .error e
    | .ok y =>
      match mapMExcept f xs with
      | .error e => .error e
      | .ok ys => .ok (y :: ys)

/-- `Address4` constructor, string branch (`address.ts` lines 184–205):
split on `.`, require exactly 4 parts, parse each part as a decimal byte. -/
def address4OfString (input : List Char) : Except ConstructError (List Nat) :=
  let addressSplitted := splitOnChar '.' input
  if addressSplitted.length ≠ IPV4_BYTES then .error .addressValueError
  else mapMExcept parseOctet4 addressSplitted

/-- `Address4` constructor, array branch (`address.ts` lines 173–183):
at most 4 valid bytes, left-padded with zeros to length 4. -/
def address4OfArray (input : List Nat) : Except ConstructError (List Nat) :=
  if input.length > IPV4_BYTES then .error .addressValueError
  else if ¬ isValidByteArray input then .error .addressValueError
  else .ok (List.replicate (IPV4_BYTES - input.length) 0 ++ input)

/-- The part-walking loop of the `Address6` string constructor
(`address.ts` lines 249–298).  State: current part index, remaining
parts, recorded shortened index (`::` position), octets so far. `n` is
the total number of parts. -/
def addr6Loop (n : Nat) :
    Nat → List (List Char) → Option Nat → List Nat →
    Except ConstructError (Option Nat × List Nat)
  | _, [], si, oct => .ok (si, oct)
  | idx, item :: rest, si, oct =>
    if item = [] then
      match si with
      | none => addr6Loop n (idx + 1) rest (some idx) oct
      | some s =>
        if s = 0 ∧ idx = 1 then addr6Loop n (idx + 1) rest (some s) oct
        else if s = n - 2 ∧ idx = n - 1 then addr6Loop n (idx + 1) rest (some s) oct
        else .error .addressValueError
    else if '.' ∈ item then
      if idx ≠ n - 1 then .error .addressValueError
      else
        match address4OfString item with
        | .error e => .error e
        | .ok v4 => addr6Loop n (idx + 1) rest si (oct ++ v4)
    else if IPV6_SEGMENT_LENGTH < item.length then .error .addressValueError
    else
      let padded := List.replicate (IPV6_SEGMENT_LENGTH - item.length) '0' ++ item
      let firstOctet := (padded.take (IPV6_SEGMENT_LENGTH / 2)).map Char.toLower
      let secondOctet := (padded.drop (IPV6_SEGMENT_LENGTH / 2)).map Char.toLower
      if ¬ isHexadecimalString firstOctet then .error .addressValueError
      else if ¬ isHexadecimalString secondOctet then .error .addressValueError
      else addr6Loop n (idx + 1) rest si (oct ++ [parseHex firstOctet, parseHex secondOctet])

/-- `Address6` constructor, string branch (`address.ts` lines 248–311).
When a `::` was recorded the zero padding is spliced in at twice the
recorded part index; `Array(IPV6_BYTES - octets.length)` raises a
`RangeError` whenever `octets.length > IPV6_BYTES` at that point. -/
def address6OfString (input : List Char) : Except ConstructError (List Nat) :=
  let addressSplitted := splitOnChar ':' input
  match addr6Loop addressSplitted.length 0 addressSplitted none [] with
  | .error e => .error e
  | .ok (si, octets) =>
    match si with
    | none =>
      if octets.length ≠ IPV6_BYTES then .error .addressValueError else .ok octets
    | some s =>
      if IPV6_BYTES < octets.length then .error .rangeError
      else
        let octets2 := octets.take (s * 2)
          ++ List.replicate (IPV6_BYTES - octets.length) 0
          ++ octets.drop (s * 2)
        if octets2.length ≠ IPV6_BYTES then .error .addressValueError else .ok octets2

/-- `Address6` constructor, array branch (`address.ts` lines 237–247). -/
def address6OfArray (input : List Nat) : Except ConstructError (List Nat) :=
  if input.length > IPV6_BYTES then .error .addressValueError
  else if ¬ isValidByteArray input then .error .addressValueError
  else .ok (List.replicate (IPV6_BYTES - input.length) 0 ++ input)

/-! ## Rendering -/

/-- A decimal digit as a character (`Number.prototype.toString` digit). -/
def decDigitChar (n : Nat) : Char := (("0123456789".toList).getD n '9')

/-- A hexadecimal digit as a lowercase character
(`Number.prototype.toString(16)` digit). -/
def hexDigitChar (n : Nat) : Char := (("0123456789abcdef".toList).getD n 'f')

/-- Fuel-driven digit emitter for `n.toString(10)` (structural recursion
so that the kernel can evaluate it; the fuel is always sufficient). -/
def natToDecAux : Nat → Nat → List Char → List Char
  | 0, _, acc => acc
  | fuel + 1, n, acc =>
    if n < 10 then decDigitChar n :: acc
    else natToDecAux fuel (n / 10) (decDigitChar (n % 10) :: acc)

/-- `n.toString(10)`: decimal rendering, no leading zeros. -/
def natToDecString (n : Nat) : List Char := natToDecAux (n + 1) n []

/-- Fuel-driven digit emitter for `n.toString(16)`. -/
def natToHexAux : Nat → Nat → List Char → List Char
  | 0, _, acc => acc
  | fuel + 1, n, acc =>
    if n < 16 then hexDigitChar n :: acc
    else natToHexAux fuel (n / 16) (hexDigitChar (n % 16) :: acc)

/-- `n.toString(16)`: lowercase hexadecimal rendering, no leading zeros. -/
def natToHexString (n : Nat) : List Char := natToHexAux (n + 1) n []

/-- `String.prototype.padStart(width, c)`. -/
def padStart (width : Nat) (c : Char) (s : List Char) : List Char :=
  List.replicate (width - s.length) c ++ s

/-- `hexOctetToString` (`address.ts` lines 25–27): two lowercase hex
digits. -/
def hexOctetToString (octet : Nat) : List Char :=
  padStart 2 '0' (natToHexString octet)

/-- `Address4.getIpString` (`address.ts` lines 208–213): octets joined
with `.` in decimal. -/
def ipString4 (octets : List Nat) : List Char :=
  List.intercalate ['.'] (octets.map natToDecString)

/-- `Address6.getOctetsPair` (`address.ts` lines 343–354): chunk the
octets into consecutive pairs. -/
def getOctetsPair : List Nat → List (List Nat)
  | a :: b :: rest => [a, b] :: getOctetsPair rest
  | [a] => [[a]]
  | [] => []

/-- `replace(/^0{1,3}/, "")`: greedily drop up to three leading `'0'`
characters. -/
def leadingZeroCount : List Char → Nat
  | c :: cs => if c = '0' then leadingZeroCount cs + 1 else 0
  | [] => 0

/-- The leading-zero stripping applied to each group in
`calculateRfc5952` (`address.ts` line 360). -/
def stripLeadingZeros (s : List Char) : List Char :=
  s.drop (min (leadingZeroCount s) 3)

/-- One group of the uncompressed RFC 5952 output: a pair of octets as
hex with up to three leading zeros stripped. -/
def groupString (pair : List Nat) : List Char :=
  stripLeadingZeros (List.flatten (pair.map hexOctetToString))

/-- The leading-zero-stripped groups of an octet sequence. -/
def groupStrings (octets : List Nat) : List (List Char) :=
  (getOctetsPair octets).map groupString

/-- The uncompressed output string `calculateRfc5952` starts from
(`address.ts` lines 357–361). -/
def rfc5952Output (octets : List Nat) : List Char :=
  List.intercalate [':'] (groupStrings octets)

/-- The scanner states of `calculateRfc5952` (`address.ts` lines
362–366). -/
inductive ParseState
  | OctetBegin
  | Shorten
  | NotShorten
deriving DecidableEq

/-- A recorded zero-run (`address.ts` lines 367–371). -/
structure Shorten where
  sBegin : Nat
  sEnd : Nat
  sLength : Nat
deriving DecidableEq

/-- The scanner's mutable state: parse state, recorded runs, start of the
current candidate run. -/
structure ScanState where
  ps : ParseState
  shortens : List Shorten
  shortenBegin : Nat
deriving DecidableEq

/-- One iteration of the scanning loop of `calculateRfc5952`
(`address.ts` lines 376–407). -/
def scanStep (index : Nat) (ch : Char) (st : ScanState) : ScanState :=
  match st.ps with
  | .OctetBegin =>
    if ch = '0' then { st with ps := .Shorten, shortenBegin := index }
    else { st with ps := .NotShorten }
  | .Shorten =>
    if ch = '0' ∨ ch = ':' then st
    else
      let shortenLength := index - st.shortenBegin
      { st with
        ps := .NotShorten,
        shortens :=
          if 2 < shortenLength then
            st.shortens ++ [⟨st.shortenBegin, index, shortenLength⟩]
          else st.shortens }
  | .NotShorten =>
    if ch = ':' then { st with ps := .OctetBegin } else st

/-- The scanning loop, with a running character index. -/
def scanGo : Nat → List Char → ScanState → ScanState
  | _, [], st => st
  | index, c :: cs, st => scanGo (index + 1) cs (scanStep index c st)

/-- The end-of-string handling after the loop (`address.ts` lines
408–417): a still-open candidate run is recorded if longer than 2. -/
def scanFinish (outputLength : Nat) (st : ScanState) : List Shorten :=
  if st.ps = .Shorten then
    let shortenLength := outputLength - st.shortenBegin
    if 2 < shortenLength then
      st.shortens ++ [⟨st.shortenBegin, outputLength, shortenLength⟩]
    else st.shortens
  else st.shortens

/-- The complete scan of the uncompressed output. -/
def scanShortens (output : List Char) : List Shorten :=
  scanFinish output.length (scanGo 0 output ⟨.OctetBegin, [], 0⟩)

/-- `shortens.slice(1).reduce(..., shortens[0])` (`address.ts` lines
421–429): keep the accumulator unless the current run is strictly
longer. -/
def bestShortenOf (hd : Shorten) (tl : List Shorten) : Shorten :=
  tl.foldl (fun acc current => if acc.sLength < current.sLength then current else acc) hd

/-- `Address6.calculateRfc5952` (`address.ts` lines 356–434). -/
def calculateRfc5952 (octets : List Nat) : List Char :=
  let output := rfc5952Output octets
  match scanShortens output with
  | [] => output
  | s0 :: rest =>
    let bestShorten := bestShortenOf s0 rest
    if bestShorten.sBegin = 0 then ':' :: ':' :: output.drop bestShorten.sEnd
    else output.take bestShorten.sBegin ++ ':' :: output.drop bestShorten.sEnd

/-- `Address6.getFullString` (`address.ts` lines 317–324). -/
def getFullString (octets : List Nat) : List Char :=
  List.intercalate [':'] ((getOctetsPair octets).map
    (fun item => List.flatten (item.map hexOctetToString)))

/-! ## Decimal value -/

/-- `Address.getDecimal` (`address.ts` lines 67–75): the reduce
`total + octet * 2 ** (8 * (4 - index - 1))` with the literal constant
`4`, over the (exact) rationals standing for JavaScript numbers. -/
def getDecimal (octets : List Nat) : ℚ :=
  octets.enum.foldl
    (fun total p => total + (p.2 : ℚ) * (2 : ℚ) ^ (8 * (4 - (p.1 : ℤ) - 1)))
    0

/-- Modelled from the spec (4.3, `getDecimal`): the big-endian numeric
value `Σ octet[i] · 256^(N-1-i)` for the actual width `N`. -/
def specDecimal (octets : List Nat) : ℚ :=
  (octets.enum.map
    (fun p => (p.2 : ℚ) * (256 : ℚ) ^ (octets.length - 1 - p.1))).sum

/-! ## Comparison — modelled from the spec (4.1, `compareWith`, the
`arrays` module being absent from the sources) -/

/-- The three-way comparison result (`comparison` enum of the `arrays`
module). -/
inductive Comparison
  | Lesser
  | Equal
  | Greater
deriving DecidableEq

/-- Modelled from the spec (4.1, `compareWith`): lexicographic,
most-significant byte first, three-way comparison. -/
def compareByteArrays : List Nat → List Nat → Comparison
  | x :: xs, y :: ys =>
    if x < y then .Lesser
    else if y < x then .Greater
    else compareByteArrays xs ys
  | _, _ => .Equal

/-- `Address.eq` (`address.ts` lines 87–89). -/
def addrEq (a b : List Nat) : Bool := compareByteArrays a b = Comparison.Equal

/-- `Address.ne` (`address.ts` lines 94–96). -/
def addrNe (a b : List Nat) : Bool := compareByteArrays a b ≠ Comparison.Equal

/-- `Address.gt` (`address.ts` lines 101–103). -/
def addrGt (a b : List Nat) : Bool := compareByteArrays a b = Comparison.Greater

/-- `Address.lt` (`address.ts` lines 108–110). -/
def addrLt (a b : List Nat) : Bool := compareByteArrays a b = Comparison.Lesser

/-- `Address.ge` (`address.ts` lines 115–118). -/
def addrGe (a b : List Nat) : Bool :=
  let result := compareByteArrays a b
  result = Comparison.Greater || result = Comparison.Equal

/-- `Address.le` (`address.ts` lines 123–126). -/
def addrLe (a b : List Nat) : Bool :=
  let result := compareByteArrays a b
  result = Comparison.Lesser || result = Comparison.Equal

/-- Big-endian numeric value of a byte sequence (the "byte-wise numeric
value" the spec's ordering is measured against). -/
def beValue : List Nat → Nat
  | [] => 0
  | x :: xs => x * 256 ^ xs.length + beValue xs

/-! ## Arithmetic — modelled from the spec (4.1, `add`, the `arrays`
module being absent from the sources) -/

/-- Carry-propagating addition on little-endian byte lists; the first
list's length is kept, a final carry is discarded. -/
def addLE : List Nat → List Nat → Nat → List Nat
  | [], _, _ => []
  | x :: xs, [], c => (x + c) % 256 :: addLE xs [] ((x + c) / 256)
  | x :: xs, y :: ys, c => (x + y + c) % 256 :: addLE xs ys ((x + y + c) / 256)

/-- Modelled from the spec (4.1, `add`): `amount` is right-aligned
(treated as the low-order bytes), bytes are added least-significant
first with carry propagating leftward, and carry past the
most-significant byte is silently discarded. -/
def byteAdd (octets amount : List Nat) : List Nat :=
  (addLE octets.reverse amount.reverse 0).reverse

/-! ## Claim theorems: concrete evaluations -/

/-- C1 (code bug evidence): at the address parsed from `"::1"` — octets
all zero except a final 1 — `getDecimal` returns `2⁻⁹⁶` (the exponent is
computed from the literal width 4, regardless of the actual width 16),
while the specified big-endian value `Σ octet[i] · 256^(N-1-i)` is `1`.
The two disagree, so `getDecimal` is not the specified big-endian value
on `Address6` (and the discrepancy is structural, not the documented
floating-point imprecision: both values here are exactly representable). -/
theorem claim_C1_code_eval :
    address6OfString "::1".toList =
      .ok [0, 0, 0, 0, 0, 0, 0, 0, 0, 0, 0, 0, 0, 0, 0, 1] ∧
    getDecimal [0, 0, 0, 0, 0, 0, 0, 0, 0, 0, 0, 0, 0, 0, 0, 1] = (2 : ℚ) ^ (-(96 : ℤ)) ∧
    specDecimal [0, 0, 0, 0, 0, 0, 0, 0, 0, 0, 0, 0, 0, 0, 0, 1] = 1 ∧
    getDecimal [0, 0, 0, 0, 0, 0, 0, 0, 0, 0, 0, 0, 0, 0, 0, 1] ≠
      specDecimal [0, 0, 0, 0, 0, 0, 0, 0, 0, 0, 0, 0, 0, 0, 0, 1] := by
  refine ⟨rfl, ?_, ?_, ?_⟩
  · simp only [getDecimal, List.enum, List.enumFrom, List.foldl]
    norm_num
  · simp only [specDecimal, List.enum, List.enumFrom, List.map, List.sum_cons,
      List.sum_nil, List.length]
    norm_num
  · simp only [getDecimal, specDecimal, List.enum, List.enumFrom, List.foldl,
      List.map, List.sum_cons, List.sum_nil, List.length]
    norm_num

/-- C2 (counterexample): the invalid input `"::1:2:3:4:5:6:7:8:9"` (a
`::` elision together with nine groups, 18 bytes) does not raise
`AddressValueError`: the constructor reaches
`Array(IPV6_BYTES - octets.length)` with a negative argument and raises
a `RangeError` instead, so not every invalid construction input raises
the single error kind `AddressValueError`. -/
theorem claim_C2_counterexample :
    address6OfString "::1:2:3:4:5:6:7:8:9".toList = .error .rangeError ∧
    ConstructError.rangeError ≠ ConstructError.addressValueError := by
  exact ⟨rfl, by decide⟩

/-- C4: `Address6("::ffff:192.168.1.1")` constructs successfully, the
trailing dotted quad being parsed as an embedded IPv4 address that
contributes the 4 low-order bytes, giving octets
`[0,0,0,0,0,0,0,0,0,0,255,255,192,168,1,1]`. -/
theorem claim_C4 :
    address6OfString "::ffff:192.168.1.1".toList =
      .ok [0, 0, 0, 0, 0, 0, 0, 0, 0, 0, 255, 255, 192, 168, 1, 1] := by
  rfl

/-- C9: `Address6("")` and `Address6(":")` both construct successfully and
both yield the all-zero 16-byte address (the empty parts produced by the
split are recorded as a `::` elision that is padded to 16 zero bytes). -/
theorem claim_C9 :
    address6OfString "".toList = .ok (List.replicate 16 0) ∧
    address6OfString ":".toList = .ok (List.replicate 16 0) := by
  exact ⟨rfl, rfl⟩

/-- C10: a single lone colon at the start or the end is accepted as if it
were `::`: `Address6(":1:2:3:4:5:6:7")` and `Address6("1:2:3:4:5:6:7:")`
both construct successfully, the missing eighth group being filled with
zero bytes at the elided position. -/
theorem claim_C10 :
    address6OfString ":1:2:3:4:5:6:7".toList =
      .ok [0, 0, 0, 1, 0, 2, 0, 3, 0, 4, 0, 5, 0, 6, 0, 7] ∧
    address6OfString "1:2:3:4:5:6:7:".toList =
      .ok [0, 1, 0, 2, 0, 3, 0, 4, 0, 5, 0, 6, 0, 7, 0, 0] := by
  exact ⟨rfl, rfl⟩

/-! ## The reduce of `calculateRfc5952` picks the leftmost maximal run -/

theorem bestShortenOf_cons (hd c : Shorten) (tl : List Shorten) :
    bestShortenOf hd (c :: tl) =
      bestShortenOf (if hd.sLength < c.sLength then c else hd) tl := rfl

/-- The `reduce` in `calculateRfc5952` (strictly-greater replaces the
accumulator) selects the leftmost run of maximal length: the input list
decomposes around the selected run, every run's length is at most the
selected one's, and every run strictly before it is strictly shorter. -/
theorem bestShortenOf_leftmost_max (tl : List Shorten) (hd : Shorten) :
    ∃ pre post,
      hd :: tl = pre ++ bestShortenOf hd tl :: post ∧
      (∀ s ∈ hd :: tl, s.sLength ≤ (bestShortenOf hd tl).sLength) ∧
      ∀ s ∈ pre, s.sLength < (bestShortenOf hd tl).sLength := by
  induction tl generalizing hd with
  | nil =>
    refine ⟨[], [], rfl, ?_, by simp⟩
    simp [bestShortenOf]
  | cons c tl ih =>
    rw [bestShortenOf_cons]
    by_cases h : hd.sLength < c.sLength
    · rw [if_pos h]
      obtain ⟨pre, post, heq, hmax, hpre⟩ := ih c
      have hc : c.sLength ≤ (bestShortenOf c tl).sLength :=
        hmax c (List.mem_cons_self c tl)
      refine ⟨hd :: pre, post, ?_, ?_, ?_⟩
      · simpa using congrArg (hd :: ·) heq
      · intro s hs
        rcases List.mem_cons.mp hs with rfl | hs
        · exact le_of_lt (lt_of_lt_of_le h hc)
        · exact hmax s hs
      · intro s hs
        rcases List.mem_cons.mp hs with rfl | hs
        · exact lt_of_lt_of_le h hc
        · exact hpre s hs
    · rw [if_neg h]
      have hch : c.sLength ≤ hd.sLength := le_of_not_lt h
      obtain ⟨pre, post, heq, hmax, hpre⟩ := ih hd
      match pre, heq with
      | [], heq =>
        have hbest : bestShortenOf hd tl = hd := by
          have := congrArg (fun l => l.head?) heq
          simpa using this.symm
        have hpost : post = tl := by
          have := congrArg List.tail heq
          simpa [hbest] using this.symm
        refine ⟨[], c :: tl, ?_, ?_, by simp⟩
        · simp [hbest]
        · intro s hs
          rcases List.mem_cons.mp hs with rfl | hs
          · exact le_of_eq (congrArg Shorten.sLength hbest.symm)
          · rcases List.mem_cons.mp hs with rfl | hs
            · exact le_trans hch (le_of_eq (congrArg Shorten.sLength hbest.symm))
            · exact hmax s (List.mem_cons_of_mem hd hs)
      | p :: pre', heq =>
        have hp : p = hd := by
          have := congrArg (fun l => l.head?) heq
          simpa using this.symm
        have htl : tl = pre' ++ bestShortenOf hd tl :: post := by
          have := congrArg List.tail heq
          simpa using this
        have hhd_lt : hd.sLength < (bestShortenOf hd tl).sLength := by
          have := hpre p (List.mem_cons_self p pre')
          rwa [hp] at this
        refine ⟨hd :: c :: pre', post, ?_, ?_, ?_⟩
        · simpa using congrArg (hd :: c :: ·) htl
        · intro s hs
          rcases List.mem_cons.mp hs with rfl | hs
          · exact le_of_lt hhd_lt
          · rcases List.mem_cons.mp hs with rfl | hs
            · exact le_of_lt (lt_of_le_of_lt hch hhd_lt)
            · exact hmax s (List.mem_cons_of_mem hd hs)
        · intro s hs
          rcases List.mem_cons.mp hs with rfl | hs
          · exact hhd_lt
          · rcases List.mem_cons.mp hs with rfl | hs
            · exact lt_of_le_of_lt hch hhd_lt
            · exact hpre s (List.mem_cons_of_mem p hs)

/-! ## Fixed-width addition wraps modulo `256 ^ width` -/

/-- Little-endian numeric value of a byte sequence. -/
def leValue : List Nat → Nat
  | [] => 0
  | x :: xs => x + 256 * leValue xs

theorem addLE_length (xs : List Nat) : ∀ (ys : List Nat) (c : Nat),
    (addLE xs ys c).length = xs.length := by
  induction xs with
  | nil => intro ys c; cases ys <;> rfl
  | cons x xs ih => intro ys c; cases ys <;> simp [addLE, ih]

theorem leValue_addLE (xs : List Nat) : ∀ (ys : List Nat) (c : Nat),
    ys.length ≤ xs.length →
    leValue (addLE xs ys c) = (leValue xs + leValue ys + c) % 256 ^ xs.length := by
  induction xs with
  | nil =>
    intro ys c h
    have hys : ys = [] := List.eq_nil_of_length_eq_zero (Nat.le_zero.mp h)
    subst hys
    simp [addLE, leValue, Nat.mod_one]
  | cons x xs ih =>
    intro ys c h
    have hpow : (256 : Nat) ^ (x :: xs).length = 256 * 256 ^ xs.length := by
      rw [List.length_cons, pow_succ, Nat.mul_comm]
    cases ys with
    | nil =>
      simp only [addLE, leValue]
      rw [ih [] ((x + c) / 256) (by simp)]
      rw [hpow]
      rw [show x + 256 * leValue xs + 0 + c = x + c + 256 * leValue xs by ring]
      rw [Nat.mod_mul, Nat.add_mul_mod_self_left,
        Nat.add_mul_div_left _ _ (by norm_num : (0 : Nat) < 256)]
      simp [leValue, Nat.add_comm]
    | cons y ys =>
      simp only [addLE, leValue]
      rw [ih ys ((x + y + c) / 256) (Nat.le_of_succ_le_succ h)]
      rw [hpow]
      rw [show x + 256 * leValue xs + (y + 256 * leValue ys) + c
            = x + y + c + 256 * (leValue xs + leValue ys) by ring]
      rw [Nat.mod_mul, Nat.add_mul_mod_self_left,
        Nat.add_mul_div_left _ _ (by norm_num : (0 : Nat) < 256)]
      congr 2
      ring_nf

theorem leValue_append_singleton (l : List Nat) (x : Nat) :
    leValue (l ++ [x]) = leValue l + x * 256 ^ l.length := by
  induction l with
  | nil => simp [leValue]
  | cons c l ih =>
    simp only [List.cons_append, leValue, List.append_eq, ih, List.length_cons, pow_succ]
    ring

theorem beValue_eq_leValue_reverse (xs : List Nat) : beValue xs = leValue xs.reverse := by
  induction xs with
  | nil => rfl
  | cons x xs ih =>
    simp only [beValue, List.reverse_cons, leValue_append_singleton, ih,
      List.length_reverse]
    ring

/-- The general wraparound law for the modelled `add`: the result keeps
the width of `this` and its big-endian value is the sum reduced modulo
`256 ^ width`; an overflowing carry is silently discarded, never an
error. -/
theorem byteAdd_spec (octets amount : List Nat)
    (h : amount.length ≤ octets.length) :
    (byteAdd octets amount).length = octets.length ∧
    beValue (byteAdd octets amount) =
      (beValue octets + beValue amount) % 256 ^ octets.length := by
  constructor
  · simp [byteAdd, addLE_length]
  · rw [beValue_eq_leValue_reverse, byteAdd, List.reverse_reverse]
    rw [leValue_addLE _ _ _ (by simpa using h)]
    rw [← beValue_eq_leValue_reverse, ← beValue_eq_leValue_reverse,
      List.length_reverse, Nat.add_zero]

/-- C5: `add` is fixed-width byte addition whose carry past the
most-significant byte is silently discarded (the value wraps modulo
`256 ^ width`, no error is ever produced), and in particular
`Address4([255,255,255,255]).add([1])` has octets `[0,0,0,0]`. -/
theorem claim_C5 :
    (address4OfArray [255, 255, 255, 255] = .ok [255, 255, 255, 255] ∧
      byteAdd [255, 255, 255, 255] [1] = [0, 0, 0, 0]) ∧
    ∀ octets amount : List Nat, amount.length ≤ octets.length →
      (byteAdd octets amount).length = octets.length ∧
      beValue (byteAdd octets amount) =
        (beValue octets + beValue amount) % 256 ^ octets.length :=
  ⟨⟨rfl, rfl⟩, fun octets amount h => byteAdd_spec octets amount h⟩

/-- Witness for C5 at `octets = [255,255,255,255]`, `amount = [1]`. -/
theorem claim_C5_witness :
    (byteAdd [255, 255, 255, 255] [1]).length = ([255, 255, 255, 255] : List Nat).length ∧
    beValue (byteAdd [255, 255, 255, 255] [1]) =
      (beValue [255, 255, 255, 255] + beValue [1]) % 256 ^ ([255, 255, 255, 255] : List Nat).length :=
  claim_C5.2 [255, 255, 255, 255] [1] (by decide)

/-! ## Ordering: trichotomy and consistency with the numeric value -/

theorem beValue_lt_pow (xs : List Nat) (h : ∀ u ∈ xs, u ≤ 255) :
    beValue xs < 256 ^ xs.length := by
  induction xs with
  | nil => simp [beValue]
  | cons x xs ih =>
    have hx : x ≤ 255 := h x (List.mem_cons_self x xs)
    have ihx := ih (fun u hu => h u (List.mem_cons_of_mem x hu))
    simp only [beValue, List.length_cons]
    calc x * 256 ^ xs.length + beValue xs
        < x * 256 ^ xs.length + 256 ^ xs.length := Nat.add_lt_add_left ihx _
      _ ≤ 255 * 256 ^ xs.length + 256 ^ xs.length :=
          Nat.add_le_add_right (Nat.mul_le_mul_right _ hx) _
      _ = 256 ^ (xs.length + 1) := by ring

theorem compareByteArrays_eq_iff (a : List Nat) : ∀ b : List Nat,
    a.length = b.length → (compareByteArrays a b = .Equal ↔ a = b) := by
  induction a with
  | nil =>
    intro b hlen
    have : b = [] := (List.eq_nil_of_length_eq_zero hlen.symm)
    subst this
    simp [compareByteArrays]
  | cons x xs ih =>
    intro b hlen
    cases b with
    | nil => simp at hlen
    | cons y ys =>
      simp only [compareByteArrays]
      by_cases hxy : x < y
      · simp only [if_pos hxy]
        constructor
        · intro h; cases h
        · intro h
          injection h with h1 _
          exact absurd h1 (Nat.ne_of_lt hxy)
      · by_cases hyx : y < x
        · simp only [if_neg hxy, if_pos hyx]
          constructor
          · intro h; cases h
          · intro h
            injection h with h1 _
            exact absurd h1.symm (Nat.ne_of_lt hyx)
        · have hxy2 : x = y := Nat.le_antisymm (Nat.le_of_not_lt hyx) (Nat.le_of_not_lt hxy)
          subst hxy2
          simp only [if_neg hxy, if_neg hyx]
          rw [ih ys (Nat.succ_injective hlen)]
          simp

theorem compareByteArrays_lt_iff (a : List Nat) : ∀ b : List Nat,
    a.length = b.length → (∀ u ∈ a, u ≤ 255) → (∀ u ∈ b, u ≤ 255) →
    (compareByteArrays a b = .Lesser ↔ beValue a < beValue b) := by
  induction a with
  | nil =>
    intro b hlen _ _
    have : b = [] := List.eq_nil_of_length_eq_zero hlen.symm
    subst this
    simp [compareByteArrays, beValue]
  | cons x xs ih =>
    intro b hlen ha hb
    cases b with
    | nil => simp at hlen
    | cons y ys =>
      have hlen' : xs.length = ys.length := Nat.succ_injective hlen
      have haxs : ∀ u ∈ xs, u ≤ 255 := fun u hu => ha u (List.mem_cons_of_mem x hu)
      have hbys : ∀ u ∈ ys, u ≤ 255 := fun u hu => hb u (List.mem_cons_of_mem y hu)
      have hvx : beValue xs < 256 ^ xs.length := beValue_lt_pow xs haxs
      have hvy : beValue ys < 256 ^ ys.length := beValue_lt_pow ys hbys
      simp only [compareByteArrays, beValue]
      by_cases hxy : x < y
      · simp only [if_pos hxy, true_iff]
        calc x * 256 ^ xs.length + beValue xs
            < x * 256 ^ xs.length + 256 ^ xs.length := Nat.add_lt_add_left hvx _
          _ = (x + 1) * 256 ^ xs.length := by ring
          _ ≤ y * 256 ^ xs.length := Nat.mul_le_mul_right _ hxy
          _ = y * 256 ^ ys.length := by rw [hlen']
          _ ≤ y * 256 ^ ys.length + beValue ys := Nat.le_add_right _ _
      · by_cases hyx : y < x
        · simp only [if_neg hxy, if_pos hyx]
          constructor
          · intro h; cases h
          · intro h
            exfalso
            have hgt : y * 256 ^ ys.length + beValue ys < x * 256 ^ xs.length + beValue xs :=
              calc y * 256 ^ ys.length + beValue ys
                  < y * 256 ^ ys.length + 256 ^ ys.length := Nat.add_lt_add_left hvy _
                _ = (y + 1) * 256 ^ ys.length := by ring
                _ ≤ x * 256 ^ ys.length := Nat.mul_le_mul_right _ hyx
                _ = x * 256 ^ xs.length := by rw [hlen']
                _ ≤ x * 256 ^ xs.length + beValue xs := Nat.le_add_right _ _
            exact absurd h (Nat.lt_asymm hgt)
        · have hxy2 : x = y := Nat.le_antisymm (Nat.le_of_not_lt hyx) (Nat.le_of_not_lt hxy)
          subst hxy2
          simp only [if_neg hxy, if_neg hyx, hlen']
          rw [ih ys hlen' haxs hbys]
          exact (Nat.add_lt_add_iff_left).symm

/-- C7: for same-width addresses exactly one of `lt`, `eq`, `gt` holds,
`ge` is the disjunction of `gt` and `eq`, and the order agrees with the
big-endian numeric value of the bytes (`eq` is octet equality). -/
theorem claim_C7 (a b : List Nat) (hlen : a.length = b.length)
    (ha : ∀ u ∈ a, u ≤ 255) (hb : ∀ u ∈ b, u ≤ 255) :
    ((addrLt a b = true ∧ addrEq a b = false ∧ addrGt a b = false) ∨
      (addrLt a b = false ∧ addrEq a b = true ∧ addrGt a b = false) ∨
      (addrLt a b = false ∧ addrEq a b = false ∧ addrGt a b = true)) ∧
    addrGe a b = (addrGt a b || addrEq a b) ∧
    (addrLt a b = true ↔ beValue a < beValue b) ∧
    (addrEq a b = true ↔ a = b) := by
  refine ⟨?_, rfl, ?_, ?_⟩
  · cases hc : compareByteArrays a b
    · exact Or.inl (by simp [addrLt, addrEq, addrGt, hc])
    · exact Or.inr (Or.inl (by simp [addrLt, addrEq, addrGt, hc]))
    · exact Or.inr (Or.inr (by simp [addrLt, addrEq, addrGt, hc]))
  · rw [show (addrLt a b = true) ↔ compareByteArrays a b = .Lesser by simp [addrLt]]
    exact compareByteArrays_lt_iff a b hlen ha hb
  · rw [show (addrEq a b = true) ↔ compareByteArrays a b = .Equal by simp [addrEq]]
    exact compareByteArrays_eq_iff a b hlen

/-- Witness for C7 at `a = [127,0,0,1]`, `b = [192,168,0,1]`. -/
theorem claim_C7_witness :
    ((addrLt [127, 0, 0, 1] [192, 168, 0, 1] = true ∧
        addrEq [127, 0, 0, 1] [192, 168, 0, 1] = false ∧
        addrGt [127, 0, 0, 1] [192, 168, 0, 1] = false) ∨
      (addrLt [127, 0, 0, 1] [192, 168, 0, 1] = false ∧
        addrEq [127, 0, 0, 1] [192, 168, 0, 1] = true ∧
        addrGt [127, 0, 0, 1] [192, 168, 0, 1] = false) ∨
      (addrLt [127, 0, 0, 1] [192, 168, 0, 1] = false ∧
        addrEq [127, 0, 0, 1] [192, 168, 0, 1] = false ∧
        addrGt [127, 0, 0, 1] [192, 168, 0, 1] = true)) ∧
    addrGe [127, 0, 0, 1] [192, 168, 0, 1] =
      (addrGt [127, 0, 0, 1] [192, 168, 0, 1] || addrEq [127, 0, 0, 1] [192, 168, 0, 1]) ∧
    (addrLt [127, 0, 0, 1] [192, 168, 0, 1] = true ↔
      beValue [127, 0, 0, 1] < beValue [192, 168, 0, 1]) ∧
    (addrEq [127, 0, 0, 1] [192, 168, 0, 1] = true ↔
      ([127, 0, 0, 1] : List Nat) = [192, 168, 0, 1]) :=
  claim_C7 [127, 0, 0, 1] [192, 168, 0, 1] (by decide) (by decide) (by decide)

/-! ## Round trip of canonical dotted-quad strings -/

theorem splitOnChar_ne_nil (sep : Char) (s : List Char) : splitOnChar sep s ≠ [] := by
  cases s with
  | nil => simp [splitOnChar]
  | cons c cs =>
    by_cases h : c = sep
    · simp [splitOnChar, h]
    · simp only [splitOnChar, if_neg h]
      cases splitOnChar sep cs <;> simp

theorem intercalate_cons_of_ne_nil (sep a : List Char) (l : List (List Char))
    (h : l ≠ []) :
    List.intercalate sep (a :: l) = a ++ sep ++ List.intercalate sep l := by
  cases l with
  | nil => exact absurd rfl h
  | cons b t => simp [List.intercalate, List.intersperse, List.append_assoc]

theorem intercalate_cons_head (sep : List Char) (c : Char) (p : List Char)
    (ps : List (List Char)) :
    List.intercalate sep ((c :: p) :: ps) = c :: List.intercalate sep (p :: ps) := by
  cases ps with
  | nil => simp [List.intercalate, List.intersperse]
  | cons q t =>
    rw [intercalate_cons_of_ne_nil sep (c :: p) (q :: t) (by simp),
      intercalate_cons_of_ne_nil sep p (q :: t) (by simp)]
    simp

theorem intercalate_splitOnChar (sep : Char) (s : List Char) :
    List.intercalate [sep] (splitOnChar sep s) = s := by
  induction s with
  | nil => simp [splitOnChar, List.intercalate, List.intersperse]
  | cons c cs ih =>
    by_cases h : c = sep
    · subst h
      rw [show splitOnChar c (c :: cs) = [] :: splitOnChar c cs by simp [splitOnChar]]
      rw [intercalate_cons_of_ne_nil [c] [] (splitOnChar c cs) (splitOnChar_ne_nil c cs)]
      simpa using ih
    · obtain ⟨p, ps, hsplit⟩ : ∃ p ps, splitOnChar sep cs = p :: ps := by
        cases hs : splitOnChar sep cs with
        | nil => exact absurd hs (splitOnChar_ne_nil sep cs)
        | cons p ps => exact ⟨p, ps, rfl⟩
      rw [show splitOnChar sep (c :: cs) = (c :: p) :: ps by
        simp only [splitOnChar, if_neg h, hsplit]]
      rw [intercalate_cons_head]
      rw [← hsplit, ih]

theorem decDigitChar_digitVal (c : Char) (h : c ∈ DECIMAL_DIGITS) :
    decDigitChar (digitVal c) = c ∧ digitVal c < 10 ∧ (c ≠ '0' → 1 ≤ digitVal c) := by
  fin_cases h <;> decide

theorem natToDecAux_append : ∀ (fuel n : Nat) (acc : List Char),
    natToDecAux fuel n acc = natToDecAux fuel n [] ++ acc := by
  intro fuel
  induction fuel with
  | zero => intro n acc; rfl
  | succ fuel ih =>
    intro n acc
    by_cases h : n < 10
    · simp [natToDecAux, h]
    · simp only [natToDecAux, if_neg h]
      rw [ih (n / 10) (decDigitChar (n % 10) :: acc),
        ih (n / 10) [decDigitChar (n % 10)]]
      simp

theorem natToDecAux_fuel : ∀ (fuel fuel' n : Nat) (acc : List Char),
    n < fuel → n < fuel' → natToDecAux fuel n acc = natToDecAux fuel' n acc := by
  intro fuel
  induction fuel with
  | zero => intro fuel' n acc h _; exact absurd h (Nat.not_lt_zero n)
  | succ fuel ih =>
    intro fuel' n acc h h'
    cases fuel' with
    | zero => exact absurd h' (Nat.not_lt_zero n)
    | succ fuel' =>
      by_cases h10 : n < 10
      · simp [natToDecAux, h10]
      · simp only [natToDecAux, if_neg h10]
        have hn : 0 < n := Nat.lt_of_lt_of_le (by norm_num) (Nat.le_of_not_lt h10)
        have hdiv : n / 10 < n := Nat.div_lt_self hn (by norm_num)
        exact ih fuel' (n / 10) _
          (Nat.lt_of_lt_of_le hdiv (Nat.lt_succ_iff.mp h))
          (Nat.lt_of_lt_of_le hdiv (Nat.lt_succ_iff.mp h'))

theorem natToDecString_eq (n : Nat) :
    natToDecString n =
      if n < 10 then [decDigitChar n]
      else natToDecString (n / 10) ++ [decDigitChar (n % 10)] := by
  by_cases h : n < 10
  · simp [natToDecString, natToDecAux, h]
  · rw [if_neg h]
    have hn : 0 < n := Nat.lt_of_lt_of_le (by norm_num) (Nat.le_of_not_lt h)
    have hdiv : n / 10 < n := Nat.div_lt_self hn (by norm_num)
    have hl : natToDecString n = natToDecAux n (n / 10) [decDigitChar (n % 10)] := by
      simp [natToDecString, natToDecAux, h]
    rw [hl, natToDecAux_fuel n (n / 10 + 1) (n / 10) _ hdiv (Nat.lt_succ_self _)]
    rw [natToDecAux_append]
    rfl

theorem parseDec_foldl_ge_one : ∀ (p : List Char) (acc : Nat), 1 ≤ acc →
    1 ≤ p.foldl (fun a c => a * 10 + digitVal c) acc := by
  intro p
  induction p with
  | nil => intro acc h; exact h
  | cons c cs ih =>
    intro acc h
    refine ih _ ?_
    calc 1 ≤ acc := h
      _ ≤ acc * 10 := Nat.le_mul_of_pos_right acc (by norm_num)
      _ ≤ acc * 10 + digitVal c := Nat.le_add_right _ _

theorem parseDec_pos (d : Char) (p : List Char)
    (hd : d ∈ DECIMAL_DIGITS) (hne : d ≠ '0') : 1 ≤ parseDec (d :: p) := by
  have h1 : 1 ≤ digitVal d := (decDigitChar_digitVal d hd).2.2 hne
  simp only [parseDec, List.foldl_cons, Nat.zero_mul, Nat.zero_add]
  exact parseDec_foldl_ge_one p _ h1

/-- Rendering inverts parsing on canonical decimal digit strings (no
leading zero unless the string is a single digit). -/
theorem natToDecString_parseDec (p : List Char)
    (hdec : isDecimalString p = true)
    (hcanon : p.length = 1 ∨ p.head? ≠ some '0') :
    natToDecString (parseDec p) = p := by
  induction p using List.reverseRecOn with
  | nil => simp [isDecimalString] at hdec
  | append_singleton p c ih =>
    have hdigits : (∀ u ∈ p, u ∈ DECIMAL_DIGITS) ∧ c ∈ DECIMAL_DIGITS := by
      simp only [isDecimalString, Bool.and_eq_true, List.all_eq_true, List.mem_append,
        List.mem_singleton, decide_eq_true_iff] at hdec
      exact ⟨fun u hu => hdec.2 u (Or.inl hu), hdec.2 c (Or.inr rfl)⟩
    have hcfacts := decDigitChar_digitVal c hdigits.2
    cases hp : p with
    | nil =>
      subst hp
      simp only [List.nil_append]
      rw [show parseDec [c] = digitVal c by
        simp [parseDec, digitVal]]
      rw [natToDecString_eq, if_pos hcfacts.2.1, hcfacts.1]
    | cons d p' =>
      subst hp
      have hhead : d ≠ '0' := by
        rcases hcanon with hlen | hhead
        · exfalso; simp [List.length_append] at hlen
        · intro hdeq
          subst hdeq
          exact hhead (by simp)
      have hdmem : d ∈ DECIMAL_DIGITS := hdigits.1 d (List.mem_cons_self d p')
      have hpos : 1 ≤ parseDec (d :: p') := parseDec_pos d p' hdmem hhead
      have hsplitfold : parseDec ((d :: p') ++ [c]) =
          parseDec (d :: p') * 10 + digitVal c := by
        simp [parseDec, List.foldl_append]
      rw [hsplitfold]
      have hnot10 : ¬ parseDec (d :: p') * 10 + digitVal c < 10 := by omega
      rw [natToDecString_eq, if_neg hnot10]
      have hdivq : (parseDec (d :: p') * 10 + digitVal c) / 10 = parseDec (d :: p') := by
        omega
      have hmodq : (parseDec (d :: p') * 10 + digitVal c) % 10 = digitVal c := by
        omega
      rw [hdivq, hmodq, hcfacts.1]
      rw [ih (by
        simp only [isDecimalString, Bool.and_eq_true, List.all_eq_true, decide_eq_true_iff]
        exact ⟨by simp, fun u hu => hdigits.1 u hu⟩)
        (Or.inr (by simpa using hhead))]

theorem mapMExcept_ok {f : α → Except ConstructError β} : ∀ (xs : List α) (ys : List β),
    mapMExcept f xs = .ok ys → List.Forall₂ (fun x y => f x = .ok y) xs ys := by
  intro xs
  induction xs with
  | nil =>
    intro ys h
    simp only [mapMExcept] at h
    injection h with h
    subst h
    exact List.Forall₂.nil
  | cons x xs ih =>
    intro ys h
    simp only [mapMExcept] at h
    cases hfx : f x with
    | error e => rw [hfx] at h; cases h
    | ok y =>
      rw [hfx] at h
      cases hrec : mapMExcept f xs with
      | error e => rw [hrec] at h; cases h
      | ok ys' =>
        rw [hrec] at h
        injection h with h
        subst h
        exact List.Forall₂.cons hfx (ih ys' hrec)

theorem parseOctet4_ok (p : List Char) (v : Nat) (h : parseOctet4 p = .ok v) :
    isDecimalString p = true ∧ v = parseDec p ∧ v ≤ 255 := by
  by_cases hdec : isDecimalString p
  · by_cases hvb : isValidByte (parseDec p)
    · simp only [parseOctet4, hdec, not_true, if_neg, if_false, hvb] at h
      refine ⟨hdec, ?_, ?_⟩
      · cases h; rfl
      · cases h; simpa [isValidByte] using hvb
    · simp [parseOctet4, hdec, hvb] at h
  · simp [parseOctet4, hdec] at h

theorem map_natToDecString_eq : ∀ (ps : List (List Char)) (ys : List Nat),
    List.Forall₂ (fun p y => parseOctet4 p = .ok y) ps ys →
    (∀ p ∈ ps, p.length = 1 ∨ p.head? ≠ some '0') →
    ys.map natToDecString = ps := by
  intro ps ys h
  induction h with
  | nil => intro _; rfl
  | @cons p y ps ys hpy _ ih =>
    intro hnz
    obtain ⟨hdec, hval, _⟩ := parseOctet4_ok p y hpy
    simp only [List.map_cons]
    rw [hval, natToDecString_parseDec p hdec (hnz p (List.mem_cons_self p ps))]
    rw [ih (fun q hq => hnz q (List.mem_cons_of_mem p hq))]

/-- C6: parsing a valid dotted-quad string whose parts carry no leading
zeros and re-serializing it is the identity. -/
theorem claim_C6 (s : List Char) (bs : List Nat)
    (hok : address4OfString s = .ok bs)
    (hnz : ∀ p ∈ splitOnChar '.' s, p.length = 1 ∨ p.head? ≠ some '0') :
    ipString4 bs = s := by
  simp only [address4OfString] at hok
  by_cases hlen : (splitOnChar '.' s).length ≠ IPV4_BYTES
  · rw [if_pos hlen] at hok; cases hok
  · rw [if_neg hlen] at hok
    have hfa := mapMExcept_ok (splitOnChar '.' s) bs hok
    simp only [ipString4]
    rw [map_natToDecString_eq (splitOnChar '.' s) bs hfa hnz]
    exact intercalate_splitOnChar '.' s

/-- Witness for C6 at `s = "127.0.0.1"`. -/
theorem claim_C6_witness : ipString4 [127, 0, 0, 1] = "127.0.0.1".toList :=
  claim_C6 "127.0.0.1".toList [127, 0, 0, 1] rfl (by decide)

/-! ## Error kinds and success invariants of the constructors -/

theorem parseOctet4_error (p : List Char) (e : ConstructError)
    (h : parseOctet4 p = .error e) : e = .addressValueError := by
  simp only [parseOctet4] at h
  split at h
  · exact (Except.error.inj h).symm
  · split at h
    · exact (Except.error.inj h).symm
    · cases h

theorem mapMExcept_parseOctet4_error : ∀ (xs : List (List Char)) (e : ConstructError),
    mapMExcept parseOctet4 xs = .error e → e = .addressValueError := by
  intro xs
  induction xs with
  | nil => intro e h; simp [mapMExcept] at h
  | cons x xs ih =>
    intro e h
    simp only [mapMExcept] at h
    cases hfx : parseOctet4 x with
    | error e2 =>
      simp only [hfx] at h
      rw [← Except.error.inj h]
      exact parseOctet4_error x e2 hfx
    | ok y =>
      simp only [hfx] at h
      cases hrec : mapMExcept parseOctet4 xs with
      | error e2 =>
        simp only [hrec] at h
        rw [← Except.error.inj h]
        exact ih e2 hrec
      | ok ys =>
        simp only [hrec] at h
        cases h

theorem address4OfString_error (s : List Char) (e : ConstructError)
    (h : address4OfString s = .error e) : e = .addressValueError := by
  simp only [address4OfString] at h
  split at h
  · exact (Except.error.inj h).symm
  · exact mapMExcept_parseOctet4_error _ e h

theorem forall₂_exists_left {α β : Type} {R : α → β → Prop} :
    ∀ {xs : List α} {ys : List β}, List.Forall₂ R xs ys →
    ∀ y ∈ ys, ∃ x ∈ xs, R x y := by
  intro xs ys h
  induction h with
  | nil => intro y hy; cases hy
  | @cons x y xs ys hR _ ih =>
    intro z hz
    rcases List.mem_cons.mp hz with rfl | hz
    · exact ⟨x, List.mem_cons_self x xs, hR⟩
    · obtain ⟨x2, hx2, hRx2⟩ := ih z hz
      exact ⟨x2, List.mem_cons_of_mem x hx2, hRx2⟩

theorem address4OfString_ok (s : List Char) (bs : List Nat)
    (h : address4OfString s = .ok bs) : bs.length = 4 ∧ ∀ b ∈ bs, b ≤ 255 := by
  simp only [address4OfString] at h
  split at h
  · cases h
  · next hlen =>
    have hfa := mapMExcept_ok _ bs h
    constructor
    · rw [← hfa.length_eq]
      simpa [IPV4_BYTES] using hlen
    · intro b hb
      obtain ⟨p, _, hp⟩ := forall₂_exists_left hfa b hb
      exact (parseOctet4_ok p b hp).2.2

theorem hexVal_le (c : Char) (h : c ∈ HEX_DIGITS) : hexVal c ≤ 15 := by
  fin_cases h <;> decide

theorem parseHex_le (s : List Char) (hhex : ∀ c ∈ s, c ∈ HEX_DIGITS)
    (hlen : s.length ≤ 2) : parseHex s ≤ 255 := by
  match s, hlen with
  | [], _ => exact Nat.zero_le 255
  | [c], _ =>
    have := hexVal_le c (hhex c (by simp))
    simp only [parseHex, List.foldl_cons, List.foldl_nil]
    omega
  | [c1, c2], _ =>
    have h1 := hexVal_le c1 (hhex c1 (by simp))
    have h2 := hexVal_le c2 (hhex c2 (by simp))
    simp only [parseHex, List.foldl_cons, List.foldl_nil]
    omega

theorem addr6Loop_error (n : Nat) : ∀ (parts : List (List Char)) (idx : Nat)
    (si : Option Nat) (oct : List Nat) (e : ConstructError),
    addr6Loop n idx parts si oct = .error e → e = .addressValueError := by
  intro parts
  induction parts with
  | nil => intro idx si oct e h; cases h
  | cons item rest ih =>
    intro idx si oct e h
    simp only [addr6Loop] at h
    split at h
    · split at h
      · exact ih _ _ _ e h
      · split at h
        · exact ih _ _ _ e h
        · split at h
          · exact ih _ _ _ e h
          · exact (Except.error.inj h).symm
    · split at h
      · split at h
        · exact (Except.error.inj h).symm
        · split at h
          · next e2 heq =>
            rw [← Except.error.inj h]
            exact address4OfString_error _ e2 heq
          · exact ih _ _ _ e h
      · split at h
        · exact (Except.error.inj h).symm
        · split at h
          · exact (Except.error.inj h).symm
          · split at h
            · exact (Except.error.inj h).symm
            · exact ih _ _ _ e h

theorem addr6Loop_ok_valid (n : Nat) : ∀ (parts : List (List Char)) (idx : Nat)
    (si : Option Nat) (oct : List Nat) (si2 : Option Nat) (oct2 : List Nat),
    addr6Loop n idx parts si oct = .ok (si2, oct2) →
    (∀ b ∈ oct, b ≤ 255) → ∀ b ∈ oct2, b ≤ 255 := by
  intro parts
  induction parts with
  | nil =>
    intro idx si oct si2 oct2 h hv
    simp only [addr6Loop] at h
    injection h with h
    injection h with _ h2
    subst h2
    exact hv
  | cons item rest ih =>
    intro idx si oct si2 oct2 h hv
    simp only [addr6Loop] at h
    split at h
    · split at h
      · exact ih _ _ _ _ _ h hv
      · split at h
        · exact ih _ _ _ _ _ h hv
        · split at h
          · exact ih _ _ _ _ _ h hv
          · cases h
    · split at h
      · split at h
        · cases h
        · split at h
          · cases h
          · next v4 heq =>
            refine ih _ _ _ _ _ h ?_
            intro b hb
            rcases List.mem_append.mp hb with hb | hb
            · exact hv b hb
            · exact (address4OfString_ok _ v4 heq).2 b hb
      · split at h
        · cases h
        · next hlen4 =>
          split at h
          · cases h
          · split at h
            · cases h
            · next hhex1 hhex2 =>
              refine ih _ _ _ _ _ h ?_
              intro b hb
              rcases List.mem_append.mp hb with hb | hb
              · exact hv b hb
              · have hb2 : b =
                    parseHex ((List.take (IPV6_SEGMENT_LENGTH / 2)
                        (List.replicate (IPV6_SEGMENT_LENGTH - item.length) '0' ++ item)).map
                      Char.toLower) ∨
                    b = parseHex ((List.drop (IPV6_SEGMENT_LENGTH / 2)
                        (List.replicate (IPV6_SEGMENT_LENGTH - item.length) '0' ++ item)).map
                      Char.toLower) := by
                  simpa using hb
                rw [not_not] at hhex1 hhex2
                simp only [isHexadecimalString, Bool.and_eq_true, List.all_eq_true,
                  decide_eq_true_iff] at hhex1 hhex2
                rcases hb2 with rfl | rfl
                · refine parseHex_le _ hhex1.2 ?_
                  simp [List.length_take, IPV6_SEGMENT_LENGTH]
                · refine parseHex_le _ hhex2.2 ?_
                  have hle4 : item.length ≤ IPV6_SEGMENT_LENGTH := Nat.le_of_not_lt hlen4
                  simp only [List.length_map, List.length_drop, List.length_append,
                    List.length_replicate]
                  simp only [IPV6_SEGMENT_LENGTH] at hle4 ⊢
                  omega

theorem address6OfString_ok (s : List Char) (bs : List Nat)
    (h : address6OfString s = .ok bs) :
    bs.length = IPV6_BYTES ∧ ∀ b ∈ bs, b ≤ 255 := by
  simp only [address6OfString] at h
  cases hloop : addr6Loop (splitOnChar ':' s).length 0 (splitOnChar ':' s) none [] with
  | error e => simp only [hloop] at h; cases h
  | ok p =>
    obtain ⟨si, oct⟩ := p
    simp only [hloop] at h
    have hval : ∀ b ∈ oct, b ≤ 255 :=
      addr6Loop_ok_valid _ _ _ _ _ _ _ hloop (by simp)
    split at h
    · split at h
      · cases h
      · next hlen =>
        rw [not_not] at hlen
        have hoct := Except.ok.inj h
        subst hoct
        exact ⟨hlen, hval⟩
    · split at h
      · cases h
      · split at h
        · cases h
        · next hlen2 =>
          rw [not_not] at hlen2
          have hoct := Except.ok.inj h
          subst hoct
          refine ⟨hlen2, ?_⟩
          intro b hb
          rcases List.mem_append.mp hb with hb | hb
          · rcases List.mem_append.mp hb with hb | hb
            · exact hval b (List.mem_of_mem_take hb)
            · rw [List.eq_of_mem_replicate hb]; exact Nat.zero_le 255
          · exact hval b (List.mem_of_mem_drop hb)

theorem address6OfString_rangeError (s : List Char)
    (h : address6OfString s = .error .rangeError) :
    ∃ si oct,
      addr6Loop (splitOnChar ':' s).length 0 (splitOnChar ':' s) none [] =
        .ok (some si, oct) ∧ IPV6_BYTES < oct.length := by
  simp only [address6OfString] at h
  cases hloop : addr6Loop (splitOnChar ':' s).length 0 (splitOnChar ':' s) none [] with
  | error e =>
    simp only [hloop] at h
    have he : ConstructError.addressValueError = ConstructError.rangeError := by
      rw [← addr6Loop_error _ _ _ _ _ e hloop]
      exact Except.error.inj h
    exact ConstructError.noConfusion he
  | ok p =>
    obtain ⟨si, oct⟩ := p
    simp only [hloop] at h
    split at h
    · split at h
      · exact ConstructError.noConfusion (Except.error.inj h)
      · cases h
    · next si2 sv =>
      split at h
      · next hgt => exact ⟨sv, oct, rfl, hgt⟩
      · split at h
        · exact ConstructError.noConfusion (Except.error.inj h)
        · cases h

/-- C2 (amended): invalid construction inputs fail synchronously with no
instance produced (modelled by the constructors being functions into
`Except`); `Address4` always raises `AddressValueError` and any success
yields 4 valid bytes; the four listed invalid inputs raise
`AddressValueError`; an `Address6` success always yields exactly 16
valid bytes; but an `Address6` failure is a `RangeError` — not
`AddressValueError` — exactly when the part walk succeeded with a `::`
recorded and more than 16 bytes already collected. -/
theorem claim_C2_amended :
    (address4OfString "256.0.0.1".toList = .error .addressValueError ∧
      address4OfString "192.168.0".toList = .error .addressValueError ∧
      address6OfString "1:2:3:4:5:6:7:8:9".toList = .error .addressValueError ∧
      address6OfString "1::2::3".toList = .error .addressValueError) ∧
    (∀ (s : List Char) (e : ConstructError),
      address4OfString s = .error e → e = .addressValueError) ∧
    (∀ (s : List Char) (bs : List Nat),
      address4OfString s = .ok bs → bs.length = 4 ∧ ∀ b ∈ bs, b ≤ 255) ∧
    (∀ (s : List Char) (bs : List Nat),
      address6OfString s = .ok bs → bs.length = IPV6_BYTES ∧ ∀ b ∈ bs, b ≤ 255) ∧
    (∀ s : List Char, address6OfString s = .error .rangeError →
      ∃ si oct,
        addr6Loop (splitOnChar ':' s).length 0 (splitOnChar ':' s) none [] =
          .ok (some si, oct) ∧ IPV6_BYTES < oct.length) :=
  ⟨⟨rfl, rfl, rfl, rfl⟩,
    address4OfString_error,
    address4OfString_ok,
    address6OfString_ok,
    address6OfString_rangeError⟩

/-- Witness for C2 (amended) at the successful input `"::1"` and the
failing input `"::1:2:3:4:5:6:7:8:9"`. -/
theorem claim_C2_amended_witness :
    (([0, 0, 0, 0, 0, 0, 0, 0, 0, 0, 0, 0, 0, 0, 0, 1] : List Nat).length = IPV6_BYTES ∧
      ∀ b ∈ ([0, 0, 0, 0, 0, 0, 0, 0, 0, 0, 0, 0, 0, 0, 0, 1] : List Nat), b ≤ 255) ∧
    ∃ si oct,
      addr6Loop (splitOnChar ':' "::1:2:3:4:5:6:7:8:9".toList).length 0
          (splitOnChar ':' "::1:2:3:4:5:6:7:8:9".toList) none [] =
        .ok (some si, oct) ∧ IPV6_BYTES < oct.length :=
  ⟨claim_C2_amended.2.2.2.1 "::1".toList
      [0, 0, 0, 0, 0, 0, 0, 0, 0, 0, 0, 0, 0, 0, 0, 1] (by exact rfl),
    claim_C2_amended.2.2.2.2 "::1:2:3:4:5:6:7:8:9".toList (by exact rfl)⟩

/-! ## Structure of the leading-zero-stripped groups -/

theorem natToHexAux_append : ∀ (fuel n : Nat) (acc : List Char),
    natToHexAux fuel n acc = natToHexAux fuel n [] ++ acc := by
  intro fuel
  induction fuel with
  | zero => intro n acc; rfl
  | succ fuel ih =>
    intro n acc
    by_cases h : n < 16
    · simp [natToHexAux, h]
    · simp only [natToHexAux, if_neg h]
      rw [ih (n / 16) (hexDigitChar (n % 16) :: acc),
        ih (n / 16) [hexDigitChar (n % 16)]]
      simp

theorem natToHexAux_fuel : ∀ (fuel fuel' n : Nat) (acc : List Char),
    n < fuel → n < fuel' → natToHexAux fuel n acc = natToHexAux fuel' n acc := by
  intro fuel
  induction fuel with
  | zero => intro fuel' n acc h _; exact absurd h (Nat.not_lt_zero n)
  | succ fuel ih =>
    intro fuel' n acc h h'
    cases fuel' with
    | zero => exact absurd h' (Nat.not_lt_zero n)
    | succ fuel' =>
      by_cases h16 : n < 16
      · simp [natToHexAux, h16]
      · simp only [natToHexAux, if_neg h16]
        have hn : 0 < n := Nat.lt_of_lt_of_le (by norm_num) (Nat.le_of_not_lt h16)
        have hdiv : n / 16 < n := Nat.div_lt_self hn (by norm_num)
        exact ih fuel' (n / 16) _
          (Nat.lt_of_lt_of_le hdiv (Nat.lt_succ_iff.mp h))
          (Nat.lt_of_lt_of_le hdiv (Nat.lt_succ_iff.mp h'))

theorem natToHexString_eq (n : Nat) :
    natToHexString n =
      if n < 16 then [hexDigitChar n]
      else natToHexString (n / 16) ++ [hexDigitChar (n % 16)] := by
  by_cases h : n < 16
  · simp [natToHexString, natToHexAux, h]
  · rw [if_neg h]
    have hn : 0 < n := Nat.lt_of_lt_of_le (by norm_num) (Nat.le_of_not_lt h)
    have hdiv : n / 16 < n := Nat.div_lt_self hn (by norm_num)
    have hl : natToHexString n = natToHexAux n (n / 16) [hexDigitChar (n % 16)] := by
      simp [natToHexString, natToHexAux, h]
    rw [hl, natToHexAux_fuel n (n / 16 + 1) (n / 16) _ hdiv (Nat.lt_succ_self _)]
    rw [natToHexAux_append]
    rfl

theorem hexDigitChar_facts : ∀ n < 16,
    hexDigitChar n ≠ ':' ∧ (hexDigitChar n = '0' ↔ n = 0) := by decide

theorem hexOctetToString_eq (o : Nat) (h : o ≤ 255) :
    hexOctetToString o = [hexDigitChar (o / 16), hexDigitChar (o % 16)] := by
  by_cases h16 : o < 16
  · have hdiv : o / 16 = 0 := Nat.div_eq_of_lt h16
    have hmod : o % 16 = o := Nat.mod_eq_of_lt h16
    rw [hexOctetToString, natToHexString_eq, if_pos h16, hdiv, hmod]
    rfl
  · have hdivlt : o / 16 < 16 := by omega
    rw [hexOctetToString, natToHexString_eq, if_neg h16,
      natToHexString_eq, if_pos hdivlt]
    rfl

/-- A leading-zero-stripped group as it appears in the uncompressed RFC
5952 output: nonempty, free of `':'`, and starting with `'0'` only if it
is exactly the single-character zero group. -/
def CanonGroup (g : List Char) : Prop :=
  g ≠ [] ∧ (∀ c ∈ g, c ≠ ':') ∧ (g.head? = some '0' → g = ['0'])

theorem groupString_canon (o1 o2 : Nat) (h1 : o1 ≤ 255) (h2 : o2 ≤ 255) :
    CanonGroup (groupString [o1, o2]) ∧
      (groupString [o1, o2] = ['0'] ↔ o1 = 0 ∧ o2 = 0) := by
  have hA := hexDigitChar_facts (o1 / 16) (by omega)
  have hB := hexDigitChar_facts (o1 % 16) (by omega)
  have hC := hexDigitChar_facts (o2 / 16) (by omega)
  have hD := hexDigitChar_facts (o2 % 16) (by omega)
  have hg : groupString [o1, o2] =
      stripLeadingZeros [hexDigitChar (o1 / 16), hexDigitChar (o1 % 16),
        hexDigitChar (o2 / 16), hexDigitChar (o2 % 16)] := by
    simp [groupString, hexOctetToString_eq o1 h1, hexOctetToString_eq o2 h2]
  rw [hg]
  by_cases ha : o1 / 16 = 0
  · by_cases hb : o1 % 16 = 0
    · by_cases hc : o2 / 16 = 0
      · by_cases hd : o2 % 16 = 0
        · rw [hA.2.mpr ha, hB.2.mpr hb, hC.2.mpr hc, hD.2.mpr hd]
          rw [show stripLeadingZeros ['0', '0', '0', '0'] = ['0'] from by decide]
          refine ⟨⟨by simp, ?_, fun _ => rfl⟩, ?_⟩
          · intro c hc2
            simp only [List.mem_singleton] at hc2
            simp [hc2]
          · simp only [true_iff]
            omega
        · have hdne : hexDigitChar (o2 % 16) ≠ '0' := fun hh => hd (hD.2.mp hh)
          rw [hA.2.mpr ha, hB.2.mpr hb, hC.2.mpr hc]
          have hs : stripLeadingZeros ['0', '0', '0', hexDigitChar (o2 % 16)] =
              [hexDigitChar (o2 % 16)] := by
            simp [stripLeadingZeros, leadingZeroCount, hdne]
          rw [hs]
          refine ⟨⟨by simp, ?_, ?_⟩, ?_⟩
          · intro c hc2
            simp only [List.mem_singleton] at hc2
            simpa [hc2] using hD.1
          · intro hh
            simp only [List.head?_cons, Option.some.injEq] at hh
            exact absurd hh hdne
          · simp only [List.cons.injEq, and_true]
            constructor
            · intro hh; exact absurd hh hdne
            · intro hh; omega
      · have hcne : hexDigitChar (o2 / 16) ≠ '0' := fun hh => hc (hC.2.mp hh)
        rw [hA.2.mpr ha, hB.2.mpr hb]
        have hs : stripLeadingZeros ['0', '0', hexDigitChar (o2 / 16),
            hexDigitChar (o2 % 16)] =
            [hexDigitChar (o2 / 16), hexDigitChar (o2 % 16)] := by
          simp [stripLeadingZeros, leadingZeroCount, hcne]
        rw [hs]
        refine ⟨⟨by simp, ?_, ?_⟩, ?_⟩
        · intro c hc2
          rcases List.mem_cons.mp hc2 with rfl | hc2
          · exact hC.1
          · simp only [List.mem_singleton] at hc2
            simpa [hc2] using hD.1
        · intro hh
          simp only [List.head?_cons, Option.some.injEq] at hh
          exact absurd hh hcne
        · constructor
          · intro hh; simp at hh
          · intro hh; exact absurd (by omega : o2 / 16 = 0) hc
    · have hbne : hexDigitChar (o1 % 16) ≠ '0' := fun hh => hb (hB.2.mp hh)
      rw [hA.2.mpr ha]
      have hs : stripLeadingZeros ['0', hexDigitChar (o1 % 16), hexDigitChar (o2 / 16),
          hexDigitChar (o2 % 16)] =
          [hexDigitChar (o1 % 16), hexDigitChar (o2 / 16), hexDigitChar (o2 % 16)] := by
        simp [stripLeadingZeros, leadingZeroCount, hbne]
      rw [hs]
      refine ⟨⟨by simp, ?_, ?_⟩, ?_⟩
      · intro c hc2
        rcases List.mem_cons.mp hc2 with rfl | hc2
        · exact hB.1
        · rcases List.mem_cons.mp hc2 with rfl | hc2
          · exact hC.1
          · simp only [List.mem_singleton] at hc2
            simpa [hc2] using hD.1
      · intro hh
        simp only [List.head?_cons, Option.some.injEq] at hh
        exact absurd hh hbne
      · constructor
        · intro hh; simp at hh
        · intro hh; exact absurd (by omega : o1 % 16 = 0) hb
  · have hane : hexDigitChar (o1 / 16) ≠ '0' := fun hh => ha (hA.2.mp hh)
    have hs : stripLeadingZeros [hexDigitChar (o1 / 16), hexDigitChar (o1 % 16),
        hexDigitChar (o2 / 16), hexDigitChar (o2 % 16)] =
        [hexDigitChar (o1 / 16), hexDigitChar (o1 % 16), hexDigitChar (o2 / 16),
          hexDigitChar (o2 % 16)] := by
      simp [stripLeadingZeros, leadingZeroCount, hane]
    rw [hs]
    refine ⟨⟨by simp, ?_, ?_⟩, ?_⟩
    · intro c hc2
      rcases List.mem_cons.mp hc2 with rfl | hc2
      · exact hA.1
      · rcases List.mem_cons.mp hc2 with rfl | hc2
        · exact hB.1
        · rcases List.mem_cons.mp hc2 with rfl | hc2
          · exact hC.1
          · simp only [List.mem_singleton] at hc2
            simpa [hc2] using hD.1
    · intro hh
      simp only [List.head?_cons, Option.some.injEq] at hh
      exact absurd hh hane
    · constructor
      · intro hh; simp at hh
      · intro hh; exact absurd (by omega : o1 / 16 = 0) ha

/-! ## The compression scanner records nothing on a string without
adjacent zero groups -/

theorem scanGo_append (a : List Char) : ∀ (b : List Char) (i : Nat) (st : ScanState),
    scanGo i (a ++ b) st = scanGo (i + a.length) b (scanGo i a st) := by
  induction a with
  | nil => intro b i st; simp [scanGo]
  | cons c a ih =>
    intro b i st
    simp only [List.cons_append, List.append_eq, scanGo]
    rw [ih b (i + 1) (scanStep i c st)]
    rw [show i + (c :: a).length = i + 1 + a.length from by
      simp only [List.length_cons]; omega]

theorem scanGo_no_colon_notShorten : ∀ (cs : List Char), (∀ c ∈ cs, c ≠ ':') →
    ∀ (i : Nat) (sh : List Shorten) (sb : Nat),
    scanGo i cs ⟨.NotShorten, sh, sb⟩ = ⟨.NotShorten, sh, sb⟩ := by
  intro cs
  induction cs with
  | nil => intro _ i sh sb; rfl
  | cons c cs ih =>
    intro h i sh sb
    have hc : c ≠ ':' := h c (List.mem_cons_self c cs)
    simp only [scanGo, scanStep, if_neg hc]
    exact ih (fun u hu => h u (List.mem_cons_of_mem c hu)) (i + 1) sh sb

theorem scanGo_nonzero_A (g : List Char) (hne : g ≠ [])
    (hcolon : ∀ c ∈ g, c ≠ ':') (hhead : g.head? ≠ some '0') :
    ∀ (i : Nat) (sh : List Shorten) (sb : Nat),
    scanGo i g ⟨.OctetBegin, sh, sb⟩ = ⟨.NotShorten, sh, sb⟩ := by
  cases g with
  | nil => exact absurd rfl hne
  | cons c cs =>
    intro i sh sb
    have hc0 : c ≠ '0' := by
      intro h
      exact hhead (by simp [h])
    simp only [scanGo, scanStep, if_neg hc0]
    exact scanGo_no_colon_notShorten cs
      (fun u hu => hcolon u (List.mem_cons_of_mem c hu)) (i + 1) sh sb

theorem scanGo_nonzero_B (g : List Char) (hne : g ≠ [])
    (hcolon : ∀ c ∈ g, c ≠ ':') (hhead : g.head? ≠ some '0') :
    ∀ (i : Nat) (sh : List Shorten) (sb : Nat), i - sb ≤ 2 →
    scanGo i g ⟨.Shorten, sh, sb⟩ = ⟨.NotShorten, sh, sb⟩ := by
  cases g with
  | nil => exact absurd rfl hne
  | cons c cs =>
    intro i sh sb hle
    have hc0 : c ≠ '0' := by
      intro h
      exact hhead (by simp [h])
    have hcc : c ≠ ':' := hcolon c (List.mem_cons_self c cs)
    simp only [scanGo, scanStep, if_neg (not_or.mpr ⟨hc0, hcc⟩),
      if_neg (show ¬ 2 < i - sb from by omega)]
    exact scanGo_no_colon_notShorten cs
      (fun u hu => hcolon u (List.mem_cons_of_mem c hu)) (i + 1) sh sb

theorem scanGo_zero_A (i : Nat) (sh : List Shorten) (sb : Nat) :
    scanGo i ['0'] ⟨.OctetBegin, sh, sb⟩ = ⟨.Shorten, sh, i⟩ := by
  simp [scanGo, scanStep]

/-- Scanning the joined canonical groups, provided no two adjacent groups
are the zero group, leaves the recorded runs unchanged; and when the scan
ends inside a candidate run, that run is at most 2 characters long. -/
theorem scan_groups : ∀ (gs : List (List Char)),
    (∀ g ∈ gs, CanonGroup g) →
    List.Chain' (fun a b => ¬(a = ['0'] ∧ b = ['0'])) gs →
    gs ≠ [] →
    ∀ (i sb : Nat) (sh : List Shorten) (st : ParseState),
    (st = .OctetBegin ∨ (st = .Shorten ∧ i = sb + 2 ∧ gs.head? ≠ some ['0'])) →
    (scanGo i (List.intercalate [':'] gs) ⟨st, sh, sb⟩).shortens = sh ∧
    ((scanGo i (List.intercalate [':'] gs) ⟨st, sh, sb⟩).ps = .Shorten →
      i + (List.intercalate [':'] gs).length ≤
        (scanGo i (List.intercalate [':'] gs) ⟨st, sh, sb⟩).shortenBegin + 2) := by
  intro gs
  induction gs with
  | nil => intro _ _ hne; exact absurd rfl hne
  | cons g rest ih =>
    intro hcanon hchain _ i sb sh st hst
    obtain ⟨hgne, hgcolon, hghead⟩ := hcanon g (List.mem_cons_self g rest)
    cases rest with
    | nil =>
      have hint : List.intercalate [':'] [g] = g := by
        simp [List.intercalate, List.intersperse]
      rw [hint]
      rcases hst with rfl | ⟨rfl, hi, hhd⟩
      · by_cases hz : g = ['0']
        · subst hz
          rw [scanGo_zero_A]
          exact ⟨rfl, fun _ => by simp only [List.length_cons, List.length_nil]; omega⟩
        · have hhead2 : g.head? ≠ some '0' := fun hh => hz (hghead hh)
          rw [scanGo_nonzero_A g hgne hgcolon hhead2]
          exact ⟨rfl, fun h => ParseState.noConfusion h⟩
      · have hgz : g ≠ ['0'] := by
          intro hz
          exact hhd (by simp [hz])
        have hhead2 : g.head? ≠ some '0' := fun hh => hgz (hghead hh)
        rw [scanGo_nonzero_B g hgne hgcolon hhead2 i sh sb (by omega)]
        exact ⟨rfl, fun h => ParseState.noConfusion h⟩
    | cons g2 rest2 =>
      have hcanon2 : ∀ u ∈ g2 :: rest2, CanonGroup u :=
        fun u hu => hcanon u (List.mem_cons_of_mem g hu)
      have hchain2 : List.Chain' (fun a b => ¬(a = ['0'] ∧ b = ['0'])) (g2 :: rest2) :=
        (List.chain'_cons.mp hchain).2
      have hint : List.intercalate [':'] (g :: g2 :: rest2) =
          (g ++ [':']) ++ List.intercalate [':'] (g2 :: rest2) := by
        rw [intercalate_cons_of_ne_nil [':'] g (g2 :: rest2) (by simp)]
      rw [hint, scanGo_append (g ++ [':'])]
      rcases hst with rfl | ⟨rfl, hi, hhd⟩
      · by_cases hz : g = ['0']
        · subst hz
          have hg2 : g2 ≠ ['0'] := by
            have hrel := (List.chain'_cons.mp hchain).1
            intro hz2
            exact hrel ⟨rfl, hz2⟩
          have hstep : scanGo i (['0'] ++ [':']) ⟨.OctetBegin, sh, sb⟩ =
              ⟨.Shorten, sh, i⟩ := by
            simp [scanGo, scanStep]
          rw [hstep]
          have ihres := ih hcanon2 hchain2 (by simp)
            (i + (['0'] ++ [':'] : List Char).length) i sh .Shorten
            (Or.inr ⟨rfl, by simp, by simpa using hg2⟩)
          refine ⟨ihres.1, ?_⟩
          intro hps
          have hb := ihres.2 hps
          simp only [List.length_append, List.length_cons, List.length_nil] at hb ⊢
          omega
        · have hhead2 : g.head? ≠ some '0' := fun hh => hz (hghead hh)
          have hstep : scanGo i (g ++ [':']) ⟨.OctetBegin, sh, sb⟩ =
              ⟨.OctetBegin, sh, sb⟩ := by
            rw [scanGo_append g, scanGo_nonzero_A g hgne hgcolon hhead2]
            simp [scanGo, scanStep]
          rw [hstep]
          have ihres := ih hcanon2 hchain2 (by simp)
            (i + (g ++ [':'] : List Char).length) sb sh .OctetBegin (Or.inl rfl)
          refine ⟨ihres.1, ?_⟩
          intro hps
          have hb := ihres.2 hps
          simp only [List.length_append, List.length_cons, List.length_nil] at hb ⊢
          omega
      · have hgz : g ≠ ['0'] := by
          intro hz
          exact hhd (by simp [hz])
        have hhead2 : g.head? ≠ some '0' := fun hh => hgz (hghead hh)
        have hstep : scanGo i (g ++ [':']) ⟨.Shorten, sh, sb⟩ =
            ⟨.OctetBegin, sh, sb⟩ := by
          rw [scanGo_append g, scanGo_nonzero_B g hgne hgcolon hhead2 i sh sb (by omega)]
          simp [scanGo, scanStep]
        rw [hstep]
        have ihres := ih hcanon2 hchain2 (by simp)
          (i + (g ++ [':'] : List Char).length) sb sh .OctetBegin (Or.inl rfl)
        refine ⟨ihres.1, ?_⟩
        intro hps
        have hb := ihres.2 hps
        simp only [List.length_append, List.length_cons, List.length_nil] at hb ⊢
        omega

theorem scanShortens_intercalate_nil (gs : List (List Char))
    (hcanon : ∀ g ∈ gs, CanonGroup g)
    (hchain : List.Chain' (fun a b => ¬(a = ['0'] ∧ b = ['0'])) gs)
    (hne : gs ≠ []) :
    scanShortens (List.intercalate [':'] gs) = [] := by
  have h := scan_groups gs hcanon hchain hne 0 0 [] .OctetBegin (Or.inl rfl)
  simp only [Nat.zero_add] at h
  unfold scanShortens scanFinish
  split
  · next hps =>
    rw [if_neg (show ¬ 2 <
        (List.intercalate [':'] gs).length -
          (scanGo 0 (List.intercalate [':'] gs) ⟨.OctetBegin, [], 0⟩).shortenBegin from by
      have := h.2 hps
      omega)]
    exact h.1
  · exact h.1

theorem getOctetsPair_even : ∀ (l : List Nat), l.length % 2 = 0 →
    ∀ p ∈ getOctetsPair l, ∃ o1 o2, p = [o1, o2] ∧ o1 ∈ l ∧ o2 ∈ l := by
  intro l
  induction l using getOctetsPair.induct with
  | case1 a b rest ih =>
    intro heven p hp
    simp only [getOctetsPair, List.mem_cons] at hp
    rcases hp with rfl | hp
    · exact ⟨a, b, rfl, by simp, by simp⟩
    · have heven2 : rest.length % 2 = 0 := by
        simp only [List.length_cons] at heven
        omega
      obtain ⟨o1, o2, rfl, h1, h2⟩ := ih heven2 p hp
      exact ⟨o1, o2, rfl, by simp [h1], by simp [h2]⟩
  | case2 a =>
    intro heven
    simp at heven
  | case3 =>
    intro _ p hp
    simp [getOctetsPair] at hp

/-- C8: a single isolated zero group is never compressed — for every
16-byte address whose leading-zero-stripped group form has no two
adjacent zero groups, `getRfc5952` equals the unshortened,
leading-zero-stripped joined form. -/
theorem claim_C8 (octets : List Nat) (hlen : octets.length = 16)
    (hval : ∀ b ∈ octets, b ≤ 255)
    (hadj : List.Chain' (fun a b => ¬(a = ['0'] ∧ b = ['0'])) (groupStrings octets)) :
    calculateRfc5952 octets = rfc5952Output octets := by
  have heven : octets.length % 2 = 0 := by rw [hlen]
  have hcanon : ∀ g ∈ groupStrings octets, CanonGroup g := by
    intro g hg
    simp only [groupStrings, List.mem_map] at hg
    obtain ⟨p, hp, rfl⟩ := hg
    obtain ⟨o1, o2, rfl, h1, h2⟩ := getOctetsPair_even octets heven p hp
    exact (groupString_canon o1 o2 (hval o1 h1) (hval o2 h2)).1
  have hne : groupStrings octets ≠ [] := by
    match octets, hlen with
    | a :: b :: rest, _ => simp [groupStrings, getOctetsPair]
  have h0 : scanShortens (rfc5952Output octets) = [] :=
    scanShortens_intercalate_nil (groupStrings octets) hcanon hadj hne
  simp only [calculateRfc5952, h0]

/-- Witness for C8 at the address with octets
`[0,1,0,2,0,3,0,4,0,5,0,6,0,7,0,8]` (groups `1:2:3:4:5:6:7:8`, no zero
group at all). -/
theorem claim_C8_witness :
    calculateRfc5952 [0, 1, 0, 2, 0, 3, 0, 4, 0, 5, 0, 6, 0, 7, 0, 8] =
      rfc5952Output [0, 1, 0, 2, 0, 3, 0, 4, 0, 5, 0, 6, 0, 7, 0, 8] :=
  claim_C8 [0, 1, 0, 2, 0, 3, 0, 4, 0, 5, 0, 6, 0, 7, 0, 8]
    (by decide) (by decide)
    (by
      rw [show groupStrings [0, 1, 0, 2, 0, 3, 0, 4, 0, 5, 0, 6, 0, 7, 0, 8] =
          [['1'], ['2'], ['3'], ['4'], ['5'], ['6'], ['7'], ['8']] from by decide]
      simp [List.chain'_cons])

/-! ## Runs of consecutive zero groups -/

/-- Number of leading zero groups of a group list. -/
def leadingZeroGroups : List (List Char) → Nat
  | g :: gs => if g = ['0'] then leadingZeroGroups gs + 1 else 0
  | [] => 0

/-- `gs` contains `k` consecutive zero groups somewhere. -/
def HasZeroRun (gs : List (List Char)) (k : Nat) : Prop :=
  ∃ m, m + k ≤ gs.length ∧ (gs.drop m).take k = List.replicate k ['0']

theorem leadingZeroGroups_le_length : ∀ gs : List (List Char),
    leadingZeroGroups gs ≤ gs.length := by
  intro gs
  induction gs with
  | nil => simp [leadingZeroGroups]
  | cons g gs ih =>
    by_cases h : g = ['0']
    · simp only [leadingZeroGroups, if_pos h, List.length_cons]; omega
    · simp only [leadingZeroGroups, if_neg h, List.length_cons]; omega

theorem leadingZeroGroups_nil : leadingZeroGroups [] = 0 := rfl

theorem leadingZeroGroups_cons_zero (gs : List (List Char)) :
    leadingZeroGroups (['0'] :: gs) = leadingZeroGroups gs + 1 := by
  simp [leadingZeroGroups]

theorem take_leadingZeroGroups : ∀ (gs : List (List Char)) (n : Nat),
    n ≤ leadingZeroGroups gs → gs.take n = List.replicate n ['0'] := by
  intro gs
  induction gs with
  | nil =>
    intro n h
    simp only [leadingZeroGroups, Nat.le_zero] at h
    simp [h]
  | cons g gs ih =>
    intro n h
    cases n with
    | zero => simp
    | succ n =>
      by_cases hg : g = ['0']
      · simp only [leadingZeroGroups, if_pos hg] at h
        rw [List.take_succ_cons, hg, ih n (by omega), List.replicate_succ]
      · simp only [leadingZeroGroups, if_neg hg] at h
        omega

theorem leadingZeroGroups_le_of_not_run (gs : List (List Char)) (c : Nat)
    (h : ¬ HasZeroRun gs (c + 1)) : leadingZeroGroups gs ≤ c := by
  by_contra hlt
  push_neg at hlt
  refine h ⟨0, ?_, ?_⟩
  · have := leadingZeroGroups_le_length gs
    simpa using by omega
  · simpa using take_leadingZeroGroups gs (c + 1) (by omega)

theorem not_hasZeroRun_tail (g : List Char) (gs : List (List Char)) (j : Nat)
    (h : ¬ HasZeroRun (g :: gs) j) : ¬ HasZeroRun gs j := by
  rintro ⟨m, hm, heq⟩
  refine h ⟨m + 1, ?_, ?_⟩
  · simp only [List.length_cons]; omega
  · simpa using heq

/-! ## More scanner step lemmas -/

theorem scanGo_zeroColon : ∀ (cs : List Char), (∀ c ∈ cs, c = '0' ∨ c = ':') →
    ∀ (i : Nat) (sh : List Shorten) (sb : Nat),
    scanGo i cs ⟨.Shorten, sh, sb⟩ = ⟨.Shorten, sh, sb⟩ := by
  intro cs
  induction cs with
  | nil => intro _ i sh sb; rfl
  | cons c cs ih =>
    intro h i sh sb
    have hc := h c (List.mem_cons_self c cs)
    simp only [scanGo, scanStep, if_pos hc]
    exact ih (fun u hu => h u (List.mem_cons_of_mem c hu)) (i + 1) sh sb

theorem scanGo_nonzero_B_push (g : List Char) (hne : g ≠ [])
    (hcolon : ∀ c ∈ g, c ≠ ':') (hhead : g.head? ≠ some '0') :
    ∀ (i : Nat) (sh : List Shorten) (sb : Nat), 2 < i - sb →
    scanGo i g ⟨.Shorten, sh, sb⟩ = ⟨.NotShorten, sh ++ [⟨sb, i, i - sb⟩], sb⟩ := by
  cases g with
  | nil => exact absurd rfl hne
  | cons c cs =>
    intro i sh sb hgt
    have hc0 : c ≠ '0' := by
      intro h
      exact hhead (by simp [h])
    have hcc : c ≠ ':' := hcolon c (List.mem_cons_self c cs)
    simp only [scanGo, scanStep, if_neg (not_or.mpr ⟨hc0, hcc⟩), if_pos hgt]
    exact scanGo_no_colon_notShorten cs
      (fun u hu => hcolon u (List.mem_cons_of_mem c hu)) (i + 1) _ sb

theorem scanStep_colon_notShorten (i : Nat) (st : ScanState) (h : st.ps = .NotShorten) :
    scanStep i ':' st = ⟨.OctetBegin, st.shortens, st.shortenBegin⟩ := by
  simp [scanStep, h]

/-! ## The all-zero block `"0:0:...:0"` -/

theorem zBlock_chars : ∀ (k : Nat) (c : Char),
    c ∈ List.intercalate [':'] (List.replicate k ['0']) → c = '0' ∨ c = ':' := by
  intro k
  induction k with
  | zero =>
    intro c hc
    simp [List.intercalate, List.intersperse] at hc
  | succ k ih =>
    intro c hc
    cases k with
    | zero =>
      simp only [List.replicate_succ, List.replicate_zero] at hc
      simp [List.intercalate, List.intersperse] at hc
      exact Or.inl hc
    | succ k2 =>
      rw [List.replicate_succ,
        intercalate_cons_of_ne_nil [':'] ['0'] (List.replicate (k2 + 1) ['0'])
          (by simp)] at hc
      simp only [List.mem_append, List.mem_singleton] at hc
      rcases hc with (hc | hc) | hc
      · exact Or.inl hc
      · exact Or.inr hc
      · exact ih c hc

theorem zBlock_length : ∀ (k : Nat), 1 ≤ k →
    (List.intercalate [':'] (List.replicate k ['0'])).length = 2 * k - 1 := by
  intro k
  induction k with
  | zero => intro h; exact absurd h (by norm_num)
  | succ k ih =>
    intro _
    cases k with
    | zero => simp [List.intercalate, List.intersperse]
    | succ k2 =>
      rw [List.replicate_succ,
        intercalate_cons_of_ne_nil [':'] ['0'] (List.replicate (k2 + 1) ['0'])
          (by simp)]
      have hlen := ih (by omega)
      simp only [List.length_append, List.length_cons, List.length_nil, hlen]
      omega

theorem scanZ_A : ∀ (k : Nat), 1 ≤ k → ∀ (i : Nat) (sh : List Shorten) (sb : Nat),
    scanGo i (List.intercalate [':'] (List.replicate k ['0'])) ⟨.OctetBegin, sh, sb⟩ =
      ⟨.Shorten, sh, i⟩ := by
  intro k hk i sh sb
  cases k with
  | zero => exact absurd hk (by norm_num)
  | succ k2 =>
    cases k2 with
    | zero =>
      rw [show List.intercalate [':'] (List.replicate 1 ['0']) = ['0'] from by
        simp [List.intercalate, List.intersperse]]
      exact scanGo_zero_A i sh sb
    | succ k3 =>
      rw [List.replicate_succ,
        intercalate_cons_of_ne_nil [':'] ['0'] (List.replicate (k3 + 1) ['0'])
          (by simp)]
      rw [show ['0'] ++ [':'] ++
          List.intercalate [':'] (List.replicate (k3 + 1) ['0']) =
          '0' :: ':' :: List.intercalate [':'] (List.replicate (k3 + 1) ['0']) from rfl]
      simp only [scanGo, scanStep, if_pos rfl]
      refine scanGo_zeroColon _ ?_ (i + 1 + 1) sh i
      intro c hc
      exact zBlock_chars (k3 + 1) c hc

theorem intercalate_append_of_ne_nil (s : List Char) : ∀ (A B : List (List Char)),
    A ≠ [] → B ≠ [] →
    List.intercalate s (A ++ B) =
      List.intercalate s A ++ s ++ List.intercalate s B := by
  intro A
  induction A with
  | nil => intro B h; exact absurd rfl h
  | cons a A ih =>
    intro B _ hB
    cases A with
    | nil =>
      rw [show ([a] ++ B : List (List Char)) = a :: B from rfl,
        intercalate_cons_of_ne_nil s a B hB,
        show List.intercalate s [a] = a from by
          simp [List.intercalate, List.intersperse]]
    | cons a2 A2 =>
      rw [show ((a :: a2 :: A2) ++ B : List (List Char)) = a :: ((a2 :: A2) ++ B) from rfl,
        intercalate_cons_of_ne_nil s a ((a2 :: A2) ++ B) (by simp),
        ih B (by simp) hB,
        intercalate_cons_of_ne_nil s a (a2 :: A2) (by simp)]
      simp [List.append_assoc]

/-! ## The reduce keeps the leftmost maximal run, whatever follows -/

theorem bestShortenOf_keep : ∀ (B : List Shorten) (acc : Shorten),
    (∀ b ∈ B, b.sLength ≤ acc.sLength) → bestShortenOf acc B = acc := by
  intro B
  induction B with
  | nil => intro acc _; rfl
  | cons b B ih =>
    intro acc h
    rw [bestShortenOf_cons,
      if_neg (show ¬ acc.sLength < b.sLength from by
        have := h b (List.mem_cons_self b B); omega)]
    exact ih acc (fun u hu => h u (List.mem_cons_of_mem b hu))

theorem bestShortenOf_through : ∀ (A : List Shorten) (ch : Shorten) (B : List Shorten)
    (acc : Shorten), acc.sLength < ch.sLength →
    (∀ a ∈ A, a.sLength < ch.sLength) →
    (∀ b ∈ B, b.sLength ≤ ch.sLength) →
    bestShortenOf acc (A ++ ch :: B) = ch := by
  intro A
  induction A with
  | nil =>
    intro ch B acc hacc _ hB
    rw [List.nil_append, bestShortenOf_cons, if_pos hacc]
    exact bestShortenOf_keep B ch hB
  | cons a A ih =>
    intro ch B acc hacc hA hB
    rw [List.cons_append, bestShortenOf_cons]
    by_cases h : acc.sLength < a.sLength
    · rw [if_pos h]
      exact ih ch B a (hA a (List.mem_cons_self a A))
        (fun u hu => hA u (List.mem_cons_of_mem a hu)) hB
    · rw [if_neg h]
      exact ih ch B acc hacc
        (fun u hu => hA u (List.mem_cons_of_mem a hu)) hB

theorem bestShortenOf_middle (A : List Shorten) (ch : Shorten) (B : List Shorten)
    (hA : ∀ a ∈ A, a.sLength < ch.sLength) (hB : ∀ b ∈ B, b.sLength ≤ ch.sLength) :
    ∀ (s0 : Shorten) (rest : List Shorten), s0 :: rest = A ++ ch :: B →
    bestShortenOf s0 rest = ch := by
  intro s0 rest heq
  cases A with
  | nil =>
    rw [List.nil_append] at heq
    injection heq with h1 h2
    rw [h1, h2]
    exact bestShortenOf_keep B ch hB
  | cons a A2 =>
    rw [List.cons_append] at heq
    injection heq with h1 h2
    rw [h1, h2]
    exact bestShortenOf_through A2 ch B a (hA a (List.mem_cons_self a A2))
      (fun u hu => hA u (List.mem_cons_of_mem a hu)) hB

/-- Scanning the joined canonical groups when no `c+1` consecutive zero
groups exist: every newly recorded run spans at most `2c` characters; a
run still open at the end spans at most `2c - 1` characters; and the
scan ends in `NotShorten` whenever the last group is nonzero.  The
`Shorten` start state stands for an open run of `m` zero groups whose
continuation into `gs` stays within the budget `c`. -/
theorem scan_bounded : ∀ (gs : List (List Char)) (c : Nat), 1 ≤ c →
    (∀ g ∈ gs, CanonGroup g) →
    ¬ HasZeroRun gs (c + 1) →
    gs ≠ [] →
    ∀ (i sb : Nat) (sh : List Shorten) (st : ParseState),
    (st = .OctetBegin ∨
      (st = .Shorten ∧ ∃ m, 1 ≤ m ∧ i = sb + 2 * m ∧ m + leadingZeroGroups gs ≤ c)) →
    ∃ new,
      (scanGo i (List.intercalate [':'] gs) ⟨st, sh, sb⟩).shortens = sh ++ new ∧
      (∀ r ∈ new, r.sLength ≤ 2 * c) ∧
      ((scanGo i (List.intercalate [':'] gs) ⟨st, sh, sb⟩).ps = .Shorten →
        i + (List.intercalate [':'] gs).length ≤
          (scanGo i (List.intercalate [':'] gs) ⟨st, sh, sb⟩).shortenBegin + 2 * c - 1) ∧
      (gs.getLast? ≠ some ['0'] →
        (scanGo i (List.intercalate [':'] gs) ⟨st, sh, sb⟩).ps = .NotShorten) := by
  intro gs
  induction gs with
  | nil => intro c _ _ _ hne; exact absurd rfl hne
  | cons g rest ih =>
    intro c hc hcanon hrun _ i sb sh st hst
    obtain ⟨hgne, hgcolon, hghead⟩ := hcanon g (List.mem_cons_self g rest)
    cases rest with
    | nil =>
      have hint : List.intercalate [':'] [g] = g := by
        simp [List.intercalate, List.intersperse]
      rw [hint]
      rcases hst with rfl | ⟨rfl, m, hm1, hieq, hmc⟩
      · by_cases hz : g = ['0']
        · subst hz
          rw [scanGo_zero_A]
          refine ⟨[], by simp, by simp, ?_, fun h => absurd rfl h⟩
          intro _
          simp only [List.length_cons, List.length_nil]
          omega
        · have hhead2 : g.head? ≠ some '0' := fun hh => hz (hghead hh)
          rw [scanGo_nonzero_A g hgne hgcolon hhead2]
          exact ⟨[], by simp, by simp, fun h => ParseState.noConfusion h, fun _ => rfl⟩
      · by_cases hz : g = ['0']
        · subst hz
          rw [scanGo_zeroColon ['0'] (by simp) i sh sb]
          refine ⟨[], by simp, by simp, ?_, fun h => absurd rfl h⟩
          intro _
          rw [leadingZeroGroups_cons_zero, leadingZeroGroups_nil] at hmc
          simp only [List.length_cons, List.length_nil]
          omega
        · have hhead2 : g.head? ≠ some '0' := fun hh => hz (hghead hh)
          have hlzg : leadingZeroGroups [g] = 0 := by
            simp [leadingZeroGroups, hz]
          rw [hlzg] at hmc
          by_cases hpush : 2 < i - sb
          · rw [scanGo_nonzero_B_push g hgne hgcolon hhead2 i sh sb hpush]
            refine ⟨[⟨sb, i, i - sb⟩], rfl, ?_,
              fun h => ParseState.noConfusion h, fun _ => rfl⟩
            intro r hr
            rcases List.mem_cons.mp hr with rfl | hr
            · show i - sb ≤ 2 * c
              omega
            · cases hr
          · rw [scanGo_nonzero_B g hgne hgcolon hhead2 i sh sb (by omega)]
            exact ⟨[], by simp, by simp, fun h => ParseState.noConfusion h, fun _ => rfl⟩
    | cons g2 rest2 =>
      have hcanon2 : ∀ u ∈ g2 :: rest2, CanonGroup u :=
        fun u hu => hcanon u (List.mem_cons_of_mem g hu)
      have hrun2 : ¬ HasZeroRun (g2 :: rest2) (c + 1) := not_hasZeroRun_tail g _ _ hrun
      have hint : List.intercalate [':'] (g :: g2 :: rest2) =
          (g ++ [':']) ++ List.intercalate [':'] (g2 :: rest2) := by
        rw [intercalate_cons_of_ne_nil [':'] g (g2 :: rest2) (by simp)]
      have hlast : (g :: g2 :: rest2).getLast? = (g2 :: rest2).getLast? := by
        simp [List.getLast?_cons_cons]
      rw [hint, scanGo_append (g ++ [':'])]
      rcases hst with rfl | ⟨rfl, m, hm1, hieq, hmc⟩
      · by_cases hz : g = ['0']
        · subst hz
          have hstep : scanGo i (['0'] ++ [':']) ⟨.OctetBegin, sh, sb⟩ =
              ⟨.Shorten, sh, i⟩ := by
            simp [scanGo, scanStep]
          rw [hstep, show i + (['0'] ++ [':'] : List Char).length = i + 2 from rfl]
          have hlzg : 1 + leadingZeroGroups (g2 :: rest2) ≤ c := by
            have h1 := leadingZeroGroups_le_of_not_run _ c hrun
            rw [leadingZeroGroups_cons_zero] at h1
            omega
          obtain ⟨new, h1, h2, h3, h4⟩ := ih c hc hcanon2 hrun2 (by simp)
            (i + 2) i sh .Shorten (Or.inr ⟨rfl, 1, le_refl 1, by omega, by omega⟩)
          refine ⟨new, h1, h2, ?_, fun hl => h4 (by rwa [hlast] at hl)⟩
          intro hps
          have hb := h3 hps
          simp only [List.length_append, List.length_cons, List.length_nil] at hb ⊢
          omega
        · have hhead2 : g.head? ≠ some '0' := fun hh => hz (hghead hh)
          have hstep : scanGo i (g ++ [':']) ⟨.OctetBegin, sh, sb⟩ =
              ⟨.OctetBegin, sh, sb⟩ := by
            rw [scanGo_append g, scanGo_nonzero_A g hgne hgcolon hhead2]
            simp [scanGo, scanStep]
          rw [hstep]
          obtain ⟨new, h1, h2, h3, h4⟩ := ih c hc hcanon2 hrun2 (by simp)
            (i + (g ++ [':'] : List Char).length) sb sh .OctetBegin (Or.inl rfl)
          refine ⟨new, h1, h2, ?_, fun hl => h4 (by rwa [hlast] at hl)⟩
          intro hps
          have hb := h3 hps
          simp only [List.length_append, List.length_cons, List.length_nil] at hb ⊢
          omega
      · by_cases hz : g = ['0']
        · subst hz
          have hstep : scanGo i (['0'] ++ [':']) ⟨.Shorten, sh, sb⟩ =
              ⟨.Shorten, sh, sb⟩ :=
            scanGo_zeroColon (['0'] ++ [':']) (by simp) i sh sb
          rw [hstep, show i + (['0'] ++ [':'] : List Char).length = i + 2 from rfl]
          rw [leadingZeroGroups_cons_zero] at hmc
          obtain ⟨new, h1, h2, h3, h4⟩ := ih c hc hcanon2 hrun2 (by simp)
            (i + 2) sb sh .Shorten (Or.inr ⟨rfl, m + 1, by omega, by omega, by omega⟩)
          refine ⟨new, h1, h2, ?_, fun hl => h4 (by rwa [hlast] at hl)⟩
          intro hps
          have hb := h3 hps
          simp only [List.length_append, List.length_cons, List.length_nil] at hb ⊢
          omega
        · have hhead2 : g.head? ≠ some '0' := fun hh => hz (hghead hh)
          have hlzg0 : leadingZeroGroups (g :: g2 :: rest2) = 0 := by
            simp [leadingZeroGroups, hz]
          rw [hlzg0] at hmc
          by_cases hpush : 2 < i - sb
          · have hstep : scanGo i (g ++ [':']) ⟨.Shorten, sh, sb⟩ =
                ⟨.OctetBegin, sh ++ [⟨sb, i, i - sb⟩], sb⟩ := by
              rw [scanGo_append g,
                scanGo_nonzero_B_push g hgne hgcolon hhead2 i sh sb hpush]
              simp [scanGo, scanStep]
            rw [hstep]
            obtain ⟨new, h1, h2, h3, h4⟩ := ih c hc hcanon2 hrun2 (by simp)
              (i + (g ++ [':'] : List Char).length) sb (sh ++ [⟨sb, i, i - sb⟩])
              .OctetBegin (Or.inl rfl)
            refine ⟨⟨sb, i, i - sb⟩ :: new, ?_, ?_, ?_,
              fun hl => h4 (by rwa [hlast] at hl)⟩
            · rw [h1, List.append_assoc]
              simp only [List.singleton_append]
            · intro r hr
              rcases List.mem_cons.mp hr with rfl | hr
              · show i - sb ≤ 2 * c
                omega
              · exact h2 r hr
            · intro hps
              have hb := h3 hps
              simp only [List.length_append, List.length_cons, List.length_nil] at hb ⊢
              omega
          · have hstep : scanGo i (g ++ [':']) ⟨.Shorten, sh, sb⟩ =
                ⟨.OctetBegin, sh, sb⟩ := by
              rw [scanGo_append g,
                scanGo_nonzero_B g hgne hgcolon hhead2 i sh sb (by omega)]
              simp [scanGo, scanStep]
            rw [hstep]
            obtain ⟨new, h1, h2, h3, h4⟩ := ih c hc hcanon2 hrun2 (by simp)
              (i + (g ++ [':'] : List Char).length) sb sh .OctetBegin (Or.inl rfl)
            refine ⟨new, h1, h2, ?_, fun hl => h4 (by rwa [hlast] at hl)⟩
            intro hps
            have hb := h3 hps
            simp only [List.length_append, List.length_cons, List.length_nil] at hb ⊢
            omega

theorem scanFinish_cases (L : Nat) (st : ScanState) :
    scanFinish L st = st.shortens ∨
      (st.ps = .Shorten ∧ 2 < L - st.shortenBegin ∧
        scanFinish L st = st.shortens ++ [⟨st.shortenBegin, L, L - st.shortenBegin⟩]) := by
  by_cases hps : st.ps = .Shorten
  · by_cases hgt : 2 < L - st.shortenBegin
    · exact Or.inr ⟨hps, hgt, by simp [scanFinish, hps, hgt]⟩
    · exact Or.inl (by simp [scanFinish, hps, hgt])
  · exact Or.inl (by simp [scanFinish, hps])

/-- Scanning the zero block at the end of the string: the whole block is
recorded as one final run of `2k - 1` characters. -/
theorem scan_Z_end (k : Nat) (hk : 2 ≤ k) (b : Nat) (sh0 : List Shorten) (sb0 : Nat) :
    scanFinish (b + (2 * k - 1))
      (scanGo b (List.intercalate [':'] (List.replicate k ['0']))
        ⟨.OctetBegin, sh0, sb0⟩) =
      sh0 ++ [⟨b, b + (2 * k - 1), 2 * k - 1⟩] := by
  rw [scanZ_A k (by omega) b sh0 sb0]
  rcases scanFinish_cases (b + (2 * k - 1)) ⟨.Shorten, sh0, b⟩ with h | ⟨_, _, h⟩
  · exfalso
    have := scanFinish_cases (b + (2 * k - 1)) (⟨.Shorten, sh0, b⟩ : ScanState)
    -- direct computation instead: the Shorten branch must fire
    unfold scanFinish at h
    rw [if_pos rfl, if_pos (show 2 < b + (2 * k - 1) - b from by omega)] at h
    simp at h
  · rw [h]
    have harith : b + (2 * k - 1) - b = 2 * k - 1 := by omega
    rw [harith]

/-- Scanning the zero block followed by a nonzero-headed remainder: the
block is recorded as a run of exactly `2k` characters starting at `b`,
and everything recorded afterwards spans at most `2k` characters. -/
theorem scan_ZT_mid (k : Nat) (hk : 2 ≤ k) (g0 : List Char) (post2 : List (List Char))
    (hcanonp : ∀ g ∈ g0 :: post2, CanonGroup g)
    (hg0 : g0 ≠ ['0'])
    (hrun : ¬ HasZeroRun (g0 :: post2) (k + 1))
    (b : Nat) (sh0 : List Shorten) (sb0 : Nat) :
    ∃ postRuns,
      scanFinish
          (b + (List.intercalate [':']
            (List.replicate k ['0'] ++ (g0 :: post2))).length)
          (scanGo b (List.intercalate [':'] (List.replicate k ['0'] ++ (g0 :: post2)))
            ⟨.OctetBegin, sh0, sb0⟩) =
        sh0 ++ ⟨b, b + 2 * k, 2 * k⟩ :: postRuns ∧
      ∀ r ∈ postRuns, r.sLength ≤ 2 * k := by
  obtain ⟨hg0ne, hg0colon, hg0head⟩ := hcanonp g0 (List.mem_cons_self g0 post2)
  have hhead2 : g0.head? ≠ some '0' := fun hh => hg0 (hg0head hh)
  have hrepne : List.replicate k ['0'] ≠ [] := by
    simp only [ne_eq, List.replicate_eq_nil_iff]
    omega
  have hW : List.intercalate [':'] (List.replicate k ['0'] ++ (g0 :: post2)) =
      (List.intercalate [':'] (List.replicate k ['0']) ++ [':']) ++
        List.intercalate [':'] (g0 :: post2) := by
    rw [intercalate_append_of_ne_nil [':'] _ _ hrepne (by simp)]
  have hZlen : (List.intercalate [':'] (List.replicate k ['0'])).length = 2 * k - 1 :=
    zBlock_length k (by omega)
  have hstep1 : scanGo b
      (List.intercalate [':'] (List.replicate k ['0']) ++ [':'])
      ⟨.OctetBegin, sh0, sb0⟩ = ⟨.Shorten, sh0, b⟩ := by
    rw [scanGo_append, scanZ_A k (by omega) b sh0 sb0]
    exact scanGo_zeroColon [':'] (by simp) _ sh0 b
  have hidx1 : b + (List.intercalate [':'] (List.replicate k ['0']) ++ [':']).length =
      b + 2 * k := by
    simp only [List.length_append, List.length_cons, List.length_nil, hZlen]
    omega
  rw [hW, scanGo_append, hstep1, hidx1]
  cases post2 with
  | nil =>
    have hT : List.intercalate [':'] [g0] = g0 := by
      simp [List.intercalate, List.intersperse]
    rw [hT, scanGo_nonzero_B_push g0 hg0ne hg0colon hhead2 (b + 2 * k) sh0 b
      (by omega)]
    refine ⟨[], ?_, by simp⟩
    have harith : b + 2 * k - b = 2 * k := by omega
    rw [harith]
    simp [scanFinish]
  | cons g1 post3 =>
    have hT : List.intercalate [':'] (g0 :: g1 :: post3) =
        (g0 ++ [':']) ++ List.intercalate [':'] (g1 :: post3) := by
      rw [intercalate_cons_of_ne_nil [':'] g0 (g1 :: post3) (by simp)]
    have hstep2 : scanGo (b + 2 * k) (g0 ++ [':']) ⟨.Shorten, sh0, b⟩ =
        ⟨.OctetBegin, sh0 ++ [⟨b, b + 2 * k, 2 * k⟩], b⟩ := by
      rw [scanGo_append, scanGo_nonzero_B_push g0 hg0ne hg0colon hhead2 (b + 2 * k)
        sh0 b (by omega)]
      have harith : b + 2 * k - b = 2 * k := by omega
      rw [harith]
      simp [scanGo, scanStep]
    obtain ⟨new, hsh, hbound, hshorten, _⟩ :=
      scan_bounded (g1 :: post3) k (by omega)
        (fun u hu => hcanonp u (List.mem_cons_of_mem g0 hu))
        (not_hasZeroRun_tail g0 _ _ hrun) (by simp)
        (b + 2 * k + (g0 ++ [':'] : List Char).length) b
        (sh0 ++ [⟨b, b + 2 * k, 2 * k⟩]) .OctetBegin (Or.inl rfl)
    rw [hT, scanGo_append, hstep2]
    have hLtot : b + ((List.intercalate [':'] (List.replicate k ['0']) ++ [':']) ++
        ((g0 ++ [':']) ++ List.intercalate [':'] (g1 :: post3))).length =
        b + 2 * k + (g0 ++ [':'] : List Char).length +
          (List.intercalate [':'] (g1 :: post3)).length := by
      simp only [List.length_append, List.length_cons, List.length_nil, hZlen]
      omega
    rw [hLtot]
    set res := scanGo (b + 2 * k + (g0 ++ [':'] : List Char).length)
      (List.intercalate [':'] (g1 :: post3))
      ⟨.OctetBegin, sh0 ++ [⟨b, b + 2 * k, 2 * k⟩], b⟩ with hres
    rcases scanFinish_cases
        (b + 2 * k + (g0 ++ [':'] : List Char).length +
          (List.intercalate [':'] (g1 :: post3)).length) res with h | ⟨hps, hgt, h⟩
    · refine ⟨new, ?_, hbound⟩
      rw [h, hsh, List.append_assoc]
      simp only [List.singleton_append]
    · refine ⟨new ++ [⟨res.shortenBegin,
        b + 2 * k + (g0 ++ [':'] : List Char).length +
          (List.intercalate [':'] (g1 :: post3)).length,
        b + 2 * k + (g0 ++ [':'] : List Char).length +
          (List.intercalate [':'] (g1 :: post3)).length - res.shortenBegin⟩], ?_, ?_⟩
      · rw [h, hsh]
        simp only [List.append_assoc, List.singleton_append, List.cons_append,
          List.nil_append]
      · intro r hr
        rcases List.mem_append.mp hr with hr | hr
        · exact hbound r hr
        · rcases List.mem_singleton.mp hr with rfl
          have hb2 := hshorten hps
          show _ - res.shortenBegin ≤ 2 * k
          omega

/-- Reduction of `calculateRfc5952` once the recorded runs are known to
split around a leftmost maximal run: runs before `⟨chB, chE, chL⟩` are
strictly shorter, runs after are no longer, so the reduce selects it and
the function slices around it. -/
theorem calc_eq_of_scan (octets : List Nat) (A : List Shorten)
    (chB chE chL : Nat) (B : List Shorten)
    (hscan : scanShortens (rfc5952Output octets) = A ++ ⟨chB, chE, chL⟩ :: B)
    (hA : ∀ a ∈ A, a.sLength < chL)
    (hB : ∀ b ∈ B, b.sLength ≤ chL) :
    calculateRfc5952 octets =
      if chB = 0 then ':' :: ':' :: (rfc5952Output octets).drop chE
      else (rfc5952Output octets).take chB ++ ':' :: (rfc5952Output octets).drop chE := by
  cases A with
  | nil =>
    rw [List.nil_append] at hscan
    have hbest : bestShortenOf ⟨chB, chE, chL⟩ B = ⟨chB, chE, chL⟩ :=
      bestShortenOf_keep B ⟨chB, chE, chL⟩ hB
    simp only [calculateRfc5952, hscan, hbest]
  | cons a A2 =>
    rw [List.cons_append] at hscan
    have hbest : bestShortenOf a (A2 ++ ⟨chB, chE, chL⟩ :: B) = ⟨chB, chE, chL⟩ :=
      bestShortenOf_middle (a :: A2) ⟨chB, chE, chL⟩ B hA hB a (A2 ++ ⟨chB, chE, chL⟩ :: B)
        rfl
    simp only [calculateRfc5952, hscan, hbest]

theorem groupStrings_canonAll (octets : List Nat) (hlen : octets.length = 16)
    (hval : ∀ b ∈ octets, b ≤ 255) : ∀ g ∈ groupStrings octets, CanonGroup g := by
  intro g hg
  simp only [groupStrings, List.mem_map] at hg
  obtain ⟨p, hp, rfl⟩ := hg
  obtain ⟨o1, o2, rfl, h1, h2⟩ := getOctetsPair_even octets (by rw [hlen]) p hp
  exact (groupString_canon o1 o2 (hval o1 h1) (hval o2 h2)).1

/-- The compressed form elides exactly the leftmost maximal run: whenever
the stripped groups decompose as `pre ++ (k zero groups) ++ post` with
`k ≥ 2`, the run maximal on both sides, no `k` consecutive zero groups
in `pre` and no `k+1` consecutive zero groups in `post`, the output is
`pre` joined, then `::`, then `post` joined. -/
theorem rfc5952_elides_run : ∀ (octets : List Nat) (pre post : List (List Char)) (k : Nat),
    octets.length = 16 →
    (∀ b ∈ octets, b ≤ 255) →
    groupStrings octets = pre ++ List.replicate k ['0'] ++ post →
    2 ≤ k →
    pre.getLast? ≠ some ['0'] →
    post.head? ≠ some ['0'] →
    ¬ HasZeroRun pre k →
    ¬ HasZeroRun post (k + 1) →
    calculateRfc5952 octets =
      List.intercalate [':'] pre ++ ':' :: ':' :: List.intercalate [':'] post := by
  intro octets pre post k hlen hval hdecomp hk hpre_last hpost_head hpre_run hpost_run
  have hcanon := groupStrings_canonAll octets hlen hval
  rw [List.append_assoc] at hdecomp
  have hrepne : List.replicate k ['0'] ≠ [] := by
    simp only [ne_eq, List.replicate_eq_nil_iff]
    omega
  have hZl : (List.intercalate [':'] (List.replicate k ['0'])).length = 2 * k - 1 :=
    zBlock_length k (by omega)
  have hout : rfc5952Output octets =
      List.intercalate [':'] (pre ++ (List.replicate k ['0'] ++ post)) := by
    rw [← hdecomp]
    rfl
  have hcanonPost : ∀ g ∈ post, CanonGroup g := by
    intro g hg
    refine hcanon g ?_
    rw [hdecomp]
    exact List.mem_append_right _ (List.mem_append_right _ hg)
  cases pre with
  | nil =>
    rw [List.nil_append] at hout
    cases post with
    | nil =>
      rw [List.append_nil] at hout
      have hscan : scanShortens (rfc5952Output octets) =
          [⟨0, 2 * k - 1, 2 * k - 1⟩] := by
        have h0 := scan_Z_end k hk 0 [] 0
        rw [Nat.zero_add] at h0
        rw [List.nil_append] at h0
        rw [hout]
        simp only [scanShortens]
        rw [hZl]
        exact h0
      have hcalc := calc_eq_of_scan octets [] 0 (2 * k - 1) (2 * k - 1) []
        (by simpa using hscan) (by simp) (by simp)
      rw [hcalc, if_pos rfl, hout]
      rw [List.drop_eq_nil_of_le (by rw [hZl])]
      simp [List.intercalate, List.intersperse]
    | cons g0 post2 =>
      have hg0 : g0 ≠ ['0'] := by
        intro h
        exact hpost_head (by simp [h])
      obtain ⟨postRuns, hfin, hbnd⟩ := scan_ZT_mid k hk g0 post2 hcanonPost hg0
        hpost_run 0 [] 0
      rw [Nat.zero_add] at hfin
      rw [List.nil_append] at hfin
      have hscan : scanShortens (rfc5952Output octets) =
          [] ++ ⟨0, 2 * k, 2 * k⟩ :: postRuns := by
        rw [hout]
        simp only [scanShortens]
        rw [show (0 : Nat) + 2 * k = 2 * k from by omega] at hfin
        exact (by simpa using hfin)
      have hcalc := calc_eq_of_scan octets [] 0 (2 * k) (2 * k) postRuns hscan
        (by simp) hbnd
      rw [hcalc, if_pos rfl, hout]
      rw [intercalate_append_of_ne_nil [':'] _ _ hrepne (by simp)]
      rw [List.drop_left' (show (List.intercalate [':'] (List.replicate k ['0']) ++
          [':'] : List Char).length = 2 * k from by
        simp only [List.length_append, List.length_cons, List.length_nil, hZl]
        omega)]
      simp [List.intercalate, List.intersperse]
  | cons p0 pre2 =>
    have hcanonPre : ∀ g ∈ p0 :: pre2, CanonGroup g := by
      intro g hg
      refine hcanon g ?_
      rw [hdecomp]
      exact List.mem_append_left _ hg
    obtain ⟨preRuns, hsh1, hbound1, _, hnot1⟩ := scan_bounded (p0 :: pre2) (k - 1)
      (by omega) hcanonPre
      (by rw [show k - 1 + 1 = k from by omega]; exact hpre_run) (by simp)
      0 0 [] .OctetBegin (Or.inl rfl)
    have hps1 : (scanGo 0 (List.intercalate [':'] (p0 :: pre2))
        ⟨.OctetBegin, [], 0⟩).ps = .NotShorten := hnot1 hpre_last
    rw [List.nil_append] at hsh1
    have hbound1' : ∀ r ∈ preRuns, r.sLength ≤ 2 * (k - 1) := hbound1
    have hPcolon : scanGo 0 (List.intercalate [':'] (p0 :: pre2) ++ [':'])
        ⟨.OctetBegin, [], 0⟩ =
        ⟨.OctetBegin, preRuns,
          (scanGo 0 (List.intercalate [':'] (p0 :: pre2))
            ⟨.OctetBegin, [], 0⟩).shortenBegin⟩ := by
      rw [scanGo_append (List.intercalate [':'] (p0 :: pre2))]
      show scanStep _ ':'
          (scanGo 0 (List.intercalate [':'] (p0 :: pre2)) ⟨.OctetBegin, [], 0⟩) = _
      rw [scanStep_colon_notShorten _ _ hps1, hsh1]
    have houtP : rfc5952Output octets =
        (List.intercalate [':'] (p0 :: pre2) ++ [':']) ++
          List.intercalate [':'] (List.replicate k ['0'] ++ post) := by
      rw [hout, intercalate_append_of_ne_nil [':'] _ _ (by simp)
        (by simp [hrepne])]
    have hb : (0 : Nat) + (List.intercalate [':'] (p0 :: pre2) ++ [':'] : List Char).length =
        (List.intercalate [':'] (p0 :: pre2)).length + 1 := by
      simp
    have hfull : scanGo 0 ((List.intercalate [':'] (p0 :: pre2) ++ [':']) ++
          List.intercalate [':'] (List.replicate k ['0'] ++ post))
        ⟨.OctetBegin, [], 0⟩ =
        scanGo ((List.intercalate [':'] (p0 :: pre2)).length + 1)
          (List.intercalate [':'] (List.replicate k ['0'] ++ post))
          ⟨.OctetBegin, preRuns,
            (scanGo 0 (List.intercalate [':'] (p0 :: pre2))
              ⟨.OctetBegin, [], 0⟩).shortenBegin⟩ := by
      rw [scanGo_append (List.intercalate [':'] (p0 :: pre2) ++ [':']), hPcolon, hb]
    cases post with
    | nil =>
      have hW0 : List.intercalate [':'] (List.replicate k ['0'] ++ ([] : List (List Char))) =
          List.intercalate [':'] (List.replicate k ['0']) := by
        rw [List.append_nil]
      have hSlen : (rfc5952Output octets).length =
          ((List.intercalate [':'] (p0 :: pre2)).length + 1) + (2 * k - 1) := by
        rw [houtP, hW0]
        simp only [List.length_append, List.length_cons, List.length_nil, hZl]
      have hscan : scanShortens (rfc5952Output octets) =
          preRuns ++ [⟨(List.intercalate [':'] (p0 :: pre2)).length + 1,
            ((List.intercalate [':'] (p0 :: pre2)).length + 1) + (2 * k - 1),
            2 * k - 1⟩] := by
        simp only [scanShortens]
        rw [hSlen]
        conv_lhs =>
          rw [houtP, hfull, hW0]
        exact scan_Z_end k hk ((List.intercalate [':'] (p0 :: pre2)).length + 1) preRuns _
      have hcalc := calc_eq_of_scan octets preRuns
        ((List.intercalate [':'] (p0 :: pre2)).length + 1)
        (((List.intercalate [':'] (p0 :: pre2)).length + 1) + (2 * k - 1))
        (2 * k - 1) []
        (by rw [hscan])
        (fun a ha => by have := hbound1' a ha; omega)
        (by simp)
      rw [hcalc, if_neg (by omega)]
      rw [houtP, hW0]
      rw [List.take_left' (show (List.intercalate [':'] (p0 :: pre2) ++ [':'] :
          List Char).length = (List.intercalate [':'] (p0 :: pre2)).length + 1 from by
        simp)]
      rw [List.drop_eq_nil_of_le (by
        simp only [List.length_append, List.length_cons, List.length_nil, hZl]
        omega)]
      simp [List.intercalate, List.intersperse]
    | cons g0 post2 =>
      have hg0 : g0 ≠ ['0'] := by
        intro h
        exact hpost_head (by simp [h])
      obtain ⟨postRuns, hfin, hbnd⟩ := scan_ZT_mid k hk g0 post2 hcanonPost hg0
        hpost_run ((List.intercalate [':'] (p0 :: pre2)).length + 1) preRuns
        ((scanGo 0 (List.intercalate [':'] (p0 :: pre2))
          ⟨.OctetBegin, [], 0⟩).shortenBegin)
      have hSlen : (rfc5952Output octets).length =
          ((List.intercalate [':'] (p0 :: pre2)).length + 1) +
            (List.intercalate [':'] (List.replicate k ['0'] ++ (g0 :: post2))).length := by
        rw [houtP]
        simp only [List.length_append, List.length_cons, List.length_nil]
      have hscan : scanShortens (rfc5952Output octets) =
          preRuns ++ ⟨(List.intercalate [':'] (p0 :: pre2)).length + 1,
            ((List.intercalate [':'] (p0 :: pre2)).length + 1) + 2 * k,
            2 * k⟩ :: postRuns := by
        simp only [scanShortens]
        rw [hSlen]
        conv_lhs =>
          rw [houtP, hfull]
        exact hfin
      have hcalc := calc_eq_of_scan octets preRuns
        ((List.intercalate [':'] (p0 :: pre2)).length + 1)
        (((List.intercalate [':'] (p0 :: pre2)).length + 1) + 2 * k)
        (2 * k) postRuns hscan
        (fun a ha => by have := hbound1' a ha; omega)
        hbnd
      rw [hcalc, if_neg (by omega)]
      rw [houtP]
      rw [List.take_left' (show (List.intercalate [':'] (p0 :: pre2) ++ [':'] :
          List Char).length = (List.intercalate [':'] (p0 :: pre2)).length + 1 from by
        simp)]
      rw [intercalate_append_of_ne_nil [':'] _ _ hrepne (by simp)]
      rw [show (List.intercalate [':'] (p0 :: pre2) ++ [':']) ++
          ((List.intercalate [':'] (List.replicate k ['0']) ++ [':']) ++
            List.intercalate [':'] (g0 :: post2)) =
          ((List.intercalate [':'] (p0 :: pre2) ++ [':']) ++
            (List.intercalate [':'] (List.replicate k ['0']) ++ [':'])) ++
            List.intercalate [':'] (g0 :: post2) from by
        simp [List.append_assoc]]
      rw [List.drop_left' (show ((List.intercalate [':'] (p0 :: pre2) ++ [':']) ++
          (List.intercalate [':'] (List.replicate k ['0']) ++ [':']) :
          List Char).length =
          ((List.intercalate [':'] (p0 :: pre2)).length + 1) + 2 * k from by
        simp only [List.length_append, List.length_cons, List.length_nil, hZl]
        omega)]
      simp

/-- C3: `getRfc5952()` replaces the longest run of consecutive all-zero
groups by `"::"`, and on ties the leftmost such run wins. Concretely, the
address parsed from `"1080:0:0:0:8:800:200c:417a"` has the sixteen
expected octets and compresses to `"1080::8:800:200c:417a"`. In general,
whenever the leading-zero-stripped groups of a valid 16-octet address
decompose as `pre ++ replicate k ["0"] ++ post` where `k ≥ 2`, the run is
maximal (the adjacent groups in `pre` and `post` are not zero groups), no
`k` consecutive zero groups occur anywhere in `pre` (so the chosen run is
leftmost among runs of maximal length) and no `k + 1` consecutive zero
groups occur in `post` (so no strictly longer run exists anywhere), then
the computed RFC 5952 form is `pre` joined with `":"`, then `"::"`, then
`post` joined with `":"` — exactly the chosen run replaced by `"::"`. -/
theorem claim_C3 :
    (address6OfString "1080:0:0:0:8:800:200c:417a".toList =
        .ok [16, 128, 0, 0, 0, 0, 0, 0, 0, 8, 8, 0, 32, 12, 65, 122] ∧
      calculateRfc5952 [16, 128, 0, 0, 0, 0, 0, 0, 0, 8, 8, 0, 32, 12, 65, 122] =
        "1080::8:800:200c:417a".toList) ∧
    ∀ (octets : List Nat) (pre post : List (List Char)) (k : Nat),
      octets.length = 16 →
      (∀ b ∈ octets, b ≤ 255) →
      groupStrings octets = pre ++ List.replicate k ['0'] ++ post →
      2 ≤ k →
      pre.getLast? ≠ some ['0'] →
      post.head? ≠ some ['0'] →
      ¬ HasZeroRun pre k →
      ¬ HasZeroRun post (k + 1) →
      calculateRfc5952 octets =
        List.intercalate [':'] pre ++ ':' :: ':' :: List.intercalate [':'] post :=
  ⟨⟨rfl, rfl⟩, rfc5952_elides_run⟩

/-- Witness for C3 exercising the tie-break: the address
`2001:0:0:1:0:0:5:6` has two zero runs of exactly two groups each; the
general part of the claim applies with the leftmost run as the chosen one
(its hypotheses hold at this decomposition and at no rightmost variant,
since `pre` is too short to contain a second two-group run) and yields
`"2001::1:0:0:5:6"`. -/
theorem claim_C3_witness :
    groupStrings [32, 1, 0, 0, 0, 0, 0, 1, 0, 0, 0, 0, 0, 5, 0, 6] =
      [['2', '0', '0', '1']] ++ List.replicate 2 ['0'] ++
        [['1'], ['0'], ['0'], ['5'], ['6']] ∧
    calculateRfc5952 [32, 1, 0, 0, 0, 0, 0, 1, 0, 0, 0, 0, 0, 5, 0, 6] =
      "2001::1:0:0:5:6".toList := by
  refine ⟨by decide, ?_⟩
  have hpre : ¬ HasZeroRun [['2', '0', '0', '1']] 2 := by
    rintro ⟨m, hm, heq⟩
    simp only [List.length_cons, List.length_nil] at hm
    omega
  have hpost : ¬ HasZeroRun [['1'], ['0'], ['0'], ['5'], ['6']] 3 := by
    rintro ⟨m, hm, heq⟩
    simp only [List.length_cons, List.length_nil] at hm
    have hm2 : m ≤ 2 := by omega
    interval_cases m <;> exact absurd heq (by decide)
  have h := claim_C3.2 [32, 1, 0, 0, 0, 0, 0, 1, 0, 0, 0, 0, 0, 5, 0, 6]
    [['2', '0', '0', '1']] [['1'], ['0'], ['0'], ['5'], ['6']] 2
    (by decide) (by decide) (by decide) (by decide) (by decide) (by decide)
    hpre hpost
  rw [h]
  decide

end TsIpAddr
